import Mathlib

/-
Verification of the minimax game tree with alpha-beta pruning implemented in
arboles_cast_enunciado.py.

The evaluation domain of the Python code is the real line extended with the
two infinities float('inf') and -float('inf'); the algorithm only ever
compares, maximises and minimises values, so it is embedded as the linear
order of integers extended with a bottom and a top element.  Python mutates
the tree in place; here every mutating routine returns the updated tree next
to its result value.  A leaf whose value is absent would make the Python code
raise a TypeError when the parent computes max or min with None, hence the
evaluators return an Option, with none standing for that failure.
-/

set_option maxHeartbeats 4000000

/-- Evaluation values: integers extended with minus and plus infinity. -/
abbrev EV : Type := WithBot (WithTop Int)

/-- Embeds a finite integer value into the evaluation domain. -/
def ev (n : Int) : EV := ((n : WithTop Int) : WithBot (WithTop Int))

/-- The node class of the source: identifier, optional value, ordered list of
children, MAX or MIN tag, pruned flag.  Field order follows the constructor
of the Python class Nodo. -/
inductive Nodo : Type where
  | mk : Nat → Option EV → List Nodo → Bool → Bool → Nodo
deriving Repr

/-- Accessor for the id field. -/
def Nodo.id : Nodo → Nat
  | .mk i _ _ _ _ => i

/-- Accessor for the valor field. -/
def Nodo.valor : Nodo → Option EV
  | .mk _ v _ _ _ => v

/-- Accessor for the hijos field. -/
def Nodo.hijos : Nodo → List Nodo
  | .mk _ _ hs _ _ => hs

/-- Accessor for the es_max field. -/
def Nodo.esMax : Nodo → Bool
  | .mk _ _ _ m _ => m

/-- Accessor for the podado field. -/
def Nodo.podado : Nodo → Bool
  | .mk _ _ _ _ p => p

/-- es_hoja of the source: a node is a leaf iff it has no children. -/
def Nodo.es_hoja (n : Nodo) : Bool := n.hijos.isEmpty

mutual

/-- marca_podado of the source: sets podado on the node and, recursively, on
every node of its subtree. -/
def marca_podado : Nodo → Nodo
  | .mk i v hs m _ => .mk i v (marcaList hs) m true

/-- The recursion of marca_podado over the list of children. -/
def marcaList : List Nodo → List Nodo
  | [] => []
  | c :: rest => marca_podado c :: marcaList rest

end

mutual

/-- alfa_beta of the source: left-to-right minimax evaluation with alpha-beta
pruning.  Returns the computed value together with the updated tree; none
models the TypeError the Python code raises on a leaf without a value. -/
def alfa_beta (n : Nodo) (alfa beta : EV) : Option (EV × Nodo) :=
  match n with
  | .mk i v hs esMax p =>
    if hs.isEmpty then
      v.map (fun x => (x, Nodo.mk i v hs esMax p))
    else if esMax then
      (abMaxLoop hs alfa beta ⊥).map
        (fun r => (r.1, Nodo.mk i (some r.1) r.2 esMax p))
    else
      (abMinLoop hs alfa beta ⊤).map
        (fun r => (r.1, Nodo.mk i (some r.1) r.2 esMax p))

/-- The child loop of alfa_beta on a MAX node: valor accumulates the maximum,
alfa is raised to it, and on alfa >= beta the loop stops and the remaining
children are marked pruned. -/
def abMaxLoop (pending : List Nodo) (alfa beta valor : EV) :
    Option (EV × List Nodo) :=
  match pending with
  | [] => some (valor, [])
  | c :: rest =>
    match alfa_beta c alfa beta with
    | none => none
    | some (rc, c') =>
      let valor' := max valor rc
      let alfa' := max alfa valor'
      if alfa' ≥ beta then
        some (valor', c' :: marcaList rest)
      else
        match abMaxLoop rest alfa' beta valor' with
        | none => none
        | some (vfin, rest') => some (vfin, c' :: rest')

/-- The child loop of alfa_beta on a MIN node: valor accumulates the minimum,
beta is lowered to it, and on alfa >= beta the loop stops and the remaining
children are marked pruned. -/
def abMinLoop (pending : List Nodo) (alfa beta valor : EV) :
    Option (EV × List Nodo) :=
  match pending with
  | [] => some (valor, [])
  | c :: rest =>
    match alfa_beta c alfa beta with
    | none => none
    | some (rc, c') =>
      let valor' := min valor rc
      let beta' := min beta valor'
      if alfa ≥ beta' then
        some (valor', c' :: marcaList rest)
      else
        match abMinLoop rest alfa beta' valor' with
        | none => none
        | some (vfin, rest') => some (vfin, c' :: rest')

end

mutual

/-- alfa_beta_reverso of the source: same algorithm but the children are
visited right to left, while the cutoff still marks the slice
hijos(index(hijo)+1 .. end) of the child list kept in the node. -/
def alfa_beta_reverso (n : Nodo) (alfa beta : EV) : Option (EV × Nodo) :=
  match n with
  | .mk i v hs esMax p =>
    if hs.isEmpty then
      v.map (fun x => (x, Nodo.mk i v hs esMax p))
    else if esMax then
      (abrMaxLoop hs.reverse hs alfa beta ⊥).map
        (fun r => (r.1, Nodo.mk i (some r.1) r.2 esMax p))
    else
      (abrMinLoop hs.reverse hs alfa beta ⊤).map
        (fun r => (r.1, Nodo.mk i (some r.1) r.2 esMax p))
termination_by sizeOf n
decreasing_by
  all_goals
    have happ : ∀ (l1 l2 : List Nodo),
        sizeOf (l1 ++ l2) + 1 = sizeOf l1 + sizeOf l2 := by
      intro l1 l2
      induction l1 with
      | nil => simp only [List.nil_append, List.nil.sizeOf_spec]; omega
      | cons a t ih => simp only [List.cons_append, List.cons.sizeOf_spec]; omega
    have hrev : ∀ (l : List Nodo), sizeOf l.reverse = sizeOf l := by
      intro l
      induction l with
      | nil => rfl
      | cons a t ih =>
        have h2 := happ t.reverse [a]
        simp only [List.reverse_cons, List.cons.sizeOf_spec,
          List.nil.sizeOf_spec] at h2 ⊢
        omega
    simp only [hrev, Nodo.mk.sizeOf_spec]
    omega

/-- The child loop of alfa_beta_reverso on a MAX node.  pending holds the
children still to visit, in visiting order, so it starts as the reverse of
the child list; cur is the current in-place state of the child list, in which
the visited child sits at position rest.length; the cutoff marks the slice of
cur after that position, mirroring hijos(index(hijo)+1 .. end). -/
def abrMaxLoop (pending cur : List Nodo) (alfa beta valor : EV) :
    Option (EV × List Nodo) :=
  match pending with
  | [] => some (valor, cur)
  | c :: rest =>
    match alfa_beta_reverso c alfa beta with
    | none => none
    | some (rc, c') =>
      let j := rest.length
      let valor' := max valor rc
      let alfa' := max alfa valor'
      let cur' := cur.set j c'
      if alfa' ≥ beta then
        some (valor', cur'.take (j+1) ++ marcaList (cur'.drop (j+1)))
      else
        abrMaxLoop rest cur' alfa' beta valor'
termination_by sizeOf pending
decreasing_by
  all_goals simp only [List.cons.sizeOf_spec]; omega

/-- The child loop of alfa_beta_reverso on a MIN node, symmetric to the MAX
case. -/
def abrMinLoop (pending cur : List Nodo) (alfa beta valor : EV) :
    Option (EV × List Nodo) :=
  match pending with
  | [] => some (valor, cur)
  | c :: rest =>
    match alfa_beta_reverso c alfa beta with
    | none => none
    | some (rc, c') =>
      let j := rest.length
      let valor' := min valor rc
      let beta' := min beta valor'
      let cur' := cur.set j c'
      if alfa ≥ beta' then
        some (valor', cur'.take (j+1) ++ marcaList (cur'.drop (j+1)))
      else
        abrMinLoop rest cur' alfa beta' valor'
termination_by sizeOf pending
decreasing_by
  all_goals simp only [List.cons.sizeOf_spec]; omega

end

/-- One step of the tree generator crear_arbol, indexed by the remaining
depth (the Python code compares prof_actual with profundidad; here fuel is
profundidad - prof_actual).  Randomness is embedded as an oracle vals giving
the value drawn when the node with a given identifier is created.  Returns
the subtree and the next free identifier, mirroring the nonlocal counter. -/
def genList (g : Nat → Bool → Nodo × Nat) : Nat → Nat → Bool → List Nodo × Nat
  | 0, id0, _ => ([], id0)
  | k + 1, id0, m =>
    let (c, id1) := g id0 m
    let (cs, id2) := genList g k id1 m
    (c :: cs, id2)

/-- The recursive subtree builder of crear_arbol: assigns the next id, then
either draws a leaf value (fuel 0) or builds factor children of the opposite
type. -/
def gen (vals : Nat → Int) (factor : Nat) : Nat → Nat → Bool → Nodo × Nat
  | 0, id0, m => (.mk id0 (some (ev (vals id0))) [] m false, id0 + 1)
  | fuel + 1, id0, m =>
    let (hs, id1) := genList (gen vals factor fuel) factor (id0 + 1) (!m)
    (.mk id0 none hs m false, id1)

/-- crear_arbol of the source: builds the complete tree of the given
branching factor and depth from identifier 0. -/
def crear_arbol (factor profundidad : Nat) (vals : Nat → Int)
    (raiz_es_max : Bool) : Nodo :=
  (gen vals factor profundidad 0 raiz_es_max).1

mutual

/-- A tree is well formed when every leaf carries a value; this is the
precondition under which the Python evaluators cannot fail. -/
def bienFormado : Nodo → Bool
  | .mk _ v hs _ _ => if hs.isEmpty then v.isSome else bienFormadoList hs

/-- List form of bienFormado. -/
def bienFormadoList : List Nodo → Bool
  | [] => true
  | c :: rest => bienFormado c && bienFormadoList rest

end

mutual

/-- Modelled from the spec: the value obtained by a full unpruned minimax
traversal, a maximising node taking the maximum of its children's values and
a minimising node the minimum, leaves contributing their stored value. -/
def minimaxSpec : Nodo → Option EV
  | .mk _ v hs esMax _ =>
    if hs.isEmpty then v
    else
      (minimaxLista hs).map
        (fun vs => if esMax then vs.foldl max ⊥ else vs.foldl min ⊤)

/-- The list of minimax values of a list of trees, none if any fails. -/
def minimaxLista : List Nodo → Option (List EV)
  | [] => some []
  | c :: rest =>
    match minimaxSpec c, minimaxLista rest with
    | some x, some xs => some (x :: xs)
    | _, _ => none

end

mutual

/-- Every node of the tree has podado = false. -/
def sinPodados : Nodo → Bool
  | .mk _ _ hs _ p => !p && sinPodadosList hs

/-- List form of sinPodados. -/
def sinPodadosList : List Nodo → Bool
  | [] => true
  | c :: rest => sinPodados c && sinPodadosList rest

end

mutual

/-- Every node of the tree has podado = true. -/
def todoPodado : Nodo → Bool
  | .mk _ _ hs _ p => p && todoPodadoList hs

/-- List form of todoPodado. -/
def todoPodadoList : List Nodo → Bool
  | [] => true
  | c :: rest => todoPodado c && todoPodadoList rest

end

mutual

/-- Pruning is downward closed: whenever a node has podado = true, its whole
subtree has podado = true; no pruned node has a non-pruned descendant. -/
def podadoCerrado : Nodo → Bool
  | .mk _ _ hs _ p => (!p || todoPodadoList hs) && podadoCerradoList hs

/-- List form of podadoCerrado. -/
def podadoCerradoList : List Nodo → Bool
  | [] => true
  | c :: rest => podadoCerrado c && podadoCerradoList rest

end

mutual

/-- Every internal node of the tree has an absent value, as in a freshly
generated tree. -/
def internosSinValor : Nodo → Bool
  | .mk _ v hs _ _ => (hs.isEmpty || v.isNone) && internosSinValorList hs

/-- List form of internosSinValor. -/
def internosSinValorList : List Nodo → Bool
  | [] => true
  | c :: rest => internosSinValor c && internosSinValorList rest

end

mutual

/-- Every pruned internal node of the tree has an absent value. -/
def podadoSinValor : Nodo → Bool
  | .mk _ v hs _ p => (!(p && !hs.isEmpty) || v.isNone) && podadoSinValorList hs

/-- List form of podadoSinValor. -/
def podadoSinValorList : List Nodo → Bool
  | [] => true
  | c :: rest => podadoSinValor c && podadoSinValorList rest

end

mutual

/-- The stored values of the leaves of the tree, left to right. -/
def valoresHojas : Nodo → List (Option EV)
  | .mk _ v hs _ _ => if hs.isEmpty then [v] else valoresHojasList hs

/-- List form of valoresHojas. -/
def valoresHojasList : List Nodo → List (Option EV)
  | [] => []
  | c :: rest => valoresHojas c ++ valoresHojasList rest

end

mutual

/-- Erases the podado flags of the whole tree, for stating that an operation
changes nothing but those flags. -/
def borraPodado : Nodo → Nodo
  | .mk i v hs m _ => .mk i v (borraPodadoList hs) m false

/-- List form of borraPodado. -/
def borraPodadoList : List Nodo → List Nodo
  | [] => []
  | c :: rest => borraPodado c :: borraPodadoList rest

end

mutual

/-- The identifiers of the tree in preorder. -/
def preordenIds : Nodo → List Nat
  | .mk i _ hs _ _ => i :: preordenIdsList hs

/-- List form of preordenIds. -/
def preordenIdsList : List Nodo → List Nat
  | [] => []
  | c :: rest => preordenIds c ++ preordenIdsList rest

end

mutual

/-- The complete-tree shape of the generator contract: at remaining depth 0
the node is a leaf carrying a value, and at positive remaining depth it has
exactly factor children, each complete at the next depth; so every path from
the node to a leaf has exactly the prescribed number of edges. -/
def formaCompleta (factor : Nat) : Nodo → Nat → Bool
  | .mk _ v hs _ _, 0 => hs.isEmpty && v.isSome
  | .mk _ _ hs _ _, d + 1 =>
    (hs.length == factor) && formaCompletaList factor hs d

/-- List form of formaCompleta. -/
def formaCompletaList (factor : Nat) : List Nodo → Nat → Bool
  | [], _ => true
  | c :: rest, d => formaCompleta factor c d && formaCompletaList factor rest d

end

mutual

/-- The MAX and MIN tags alternate by depth, the root carrying the given
tag and every child carrying the negation of its parent's tag. -/
def alterna : Nodo → Bool → Bool
  | .mk _ _ hs m _, b => (m == b) && alternaList hs (!b)

/-- List form of alterna. -/
def alternaList : List Nodo → Bool → Bool
  | [], _ => true
  | c :: rest, b => alterna c b && alternaList rest b

end

/-- The tree of the worked scenario of the spec: depth 2, branching factor 2,
MAX root, leaves 3 5 under the first MIN child and 2 9 under the second. -/
def arbolEscenario : Nodo :=
  .mk 0 none
    [ .mk 1 none [.mk 2 (some (ev 3)) [] true false,
                  .mk 3 (some (ev 5)) [] true false] false false,
      .mk 4 none [.mk 5 (some (ev 2)) [] true false,
                  .mk 6 (some (ev 9)) [] true false] false false ]
    true false

/-- A tree on which the reverse traversal cuts off inside its first child:
MAX root, first MIN child with leaves 9 2, second MIN child with leaves 5 3. -/
def arbolReversoPoda : Nodo :=
  .mk 0 none
    [ .mk 1 none [.mk 2 (some (ev 9)) [] true false,
                  .mk 3 (some (ev 2)) [] true false] false false,
      .mk 4 none [.mk 5 (some (ev 5)) [] true false,
                  .mk 6 (some (ev 3)) [] true false] false false ]
    true false

/-- A tree on which the reverse traversal cuts off in the middle of a child
list of three: MAX root, first MIN child with leaves 7 4 6, second MIN child
with leaves 5 5. -/
def arbolReversoMedio : Nodo :=
  .mk 0 none
    [ .mk 1 none [.mk 2 (some (ev 7)) [] true false,
                  .mk 3 (some (ev 4)) [] true false,
                  .mk 4 (some (ev 6)) [] true false] false false,
      .mk 5 none [.mk 6 (some (ev 5)) [] true false,
                  .mk 7 (some (ev 5)) [] true false] false false ]
    true false

/-- Comparison of embedded finite values. -/
theorem ev_le_ev {a b : Int} : ev a ≤ ev b ↔ a ≤ b := by
  simp [ev]

/-- Strict comparison of embedded finite values. -/
theorem ev_lt_ev {a b : Int} : ev a < ev b ↔ a < b := by
  simp [ev]

/-- Maximum of embedded finite values. -/
theorem max_ev_ev (a b : Int) : max (ev a) (ev b) = ev (max a b) := by
  rcases le_total a b with h | h
  · rw [max_eq_right (ev_le_ev.mpr h), max_eq_right h]
  · rw [max_eq_left (ev_le_ev.mpr h), max_eq_left h]

/-- Minimum of embedded finite values. -/
theorem min_ev_ev (a b : Int) : min (ev a) (ev b) = ev (min a b) := by
  rcases le_total a b with h | h
  · rw [min_eq_left (ev_le_ev.mpr h), min_eq_left h]
  · rw [min_eq_right (ev_le_ev.mpr h), min_eq_right h]

/-- A finite value is not plus infinity. -/
theorem ev_eq_top {a : Int} : ev a = (⊤ : EV) ↔ False := by
  simp [ev]

/-- Plus infinity is not below a finite value. -/
theorem top_le_ev {a : Int} : (⊤ : EV) ≤ ev a ↔ False := by
  simp [ev, top_le_iff]

/-- A finite value is not below minus infinity. -/
theorem ev_le_bot {a : Int} : ev a ≤ (⊥ : EV) ↔ False := by
  simp [ev]

/-- A finite value is not minus infinity. -/
theorem ev_eq_bot {a : Int} : ev a = (⊥ : EV) ↔ False := by
  simp [ev]

/-- Minus infinity is absorbed by maximum. -/
theorem maxBotIzq (x : EV) : max ⊥ x = x := by simp

/-- Minus infinity is absorbed by maximum on the right. -/
theorem maxBotDer (x : EV) : max x ⊥ = x := by simp

/-- Plus infinity is absorbed by minimum. -/
theorem minTopIzq (x : EV) : min ⊤ x = x := by simp

/-- Plus infinity is absorbed by minimum on the right. -/
theorem minTopDer (x : EV) : min x ⊤ = x := by simp

/-- Claim C7: on the scenario tree of depth 2 and branching factor 2 with a
MAX root and leaves 3 5 and 2 9 under the two MIN children, the left-to-right
evaluation from alpha minus infinity and beta plus infinity evaluates the
first MIN child to 3, cuts off in the second MIN child after its first
grandchild with value 2 because 3 is at least 2, returns 3 at the root, and
marks exactly one leaf, the one with value 9, as pruned. -/
theorem c7_escenario_adelante :
    alfa_beta arbolEscenario ⊥ ⊤ =
      some (ev 3,
        .mk 0 (some (ev 3))
          [ .mk 1 (some (ev 3)) [.mk 2 (some (ev 3)) [] true false,
                                 .mk 3 (some (ev 5)) [] true false] false false,
            .mk 4 (some (ev 2)) [.mk 5 (some (ev 2)) [] true false,
                                 .mk 6 (some (ev 9)) [] true true] false false ]
          true false) := by rfl

/-- Claim C1, evaluation at the failing input: on the tree with MAX root and
MIN children with leaves 9 2 and 5 3, the right-to-left evaluation from the
infinite window cuts off inside the first child right after visiting its leaf
with value 2, so its leaf with value 9 is never visited, yet the run returns
the tree with no podado flag set at all: the never visited leaf 9 ends with
podado = false, against the claimed equivalence. -/
theorem c1_reverso_no_marca_no_visitado :
    alfa_beta_reverso arbolReversoPoda ⊥ ⊤ =
      some (ev 3,
        .mk 0 (some (ev 3))
          [ .mk 1 (some (ev 2)) [.mk 2 (some (ev 9)) [] true false,
                                 .mk 3 (some (ev 2)) [] true false] false false,
            .mk 4 (some (ev 3)) [.mk 5 (some (ev 5)) [] true false,
                                 .mk 6 (some (ev 3)) [] true false] false false ]
          true false) := by
  simp [alfa_beta_reverso, abrMaxLoop, abrMinLoop, arbolReversoPoda,
    marca_podado, marcaList, ev_le_ev, ev_lt_ev, max_ev_ev, min_ev_ev,
    ev_eq_top, top_le_ev, ev_le_bot, ev_eq_bot,
    maxBotIzq, maxBotDer, minTopIzq, minTopDer]

/-- Claim C4, evaluation at the failing input: on the tree with MAX root,
first MIN child with leaves 7 4 6 and second MIN child with leaves 5 5, the
right-to-left evaluation cuts off at the middle leaf 4 of the first child;
the leaf 6, already visited before the cutoff, ends marked podado = true,
while the leaf 7, the one strictly following the cutting child in the
traversal order and never visited, ends with podado = false. -/
theorem c4_reverso_marca_visitado :
    alfa_beta_reverso arbolReversoMedio ⊥ ⊤ =
      some (ev 5,
        .mk 0 (some (ev 5))
          [ .mk 1 (some (ev 4)) [.mk 2 (some (ev 7)) [] true false,
                                 .mk 3 (some (ev 4)) [] true false,
                                 .mk 4 (some (ev 6)) [] true true] false false,
            .mk 5 (some (ev 5)) [.mk 6 (some (ev 5)) [] true false,
                                 .mk 7 (some (ev 5)) [] true false] false false ]
          true false) := by
  simp [alfa_beta_reverso, abrMaxLoop, abrMinLoop, arbolReversoMedio,
    marca_podado, marcaList, ev_le_ev, ev_lt_ev, max_ev_ev, min_ev_ev,
    ev_eq_top, top_le_ev, ev_le_bot, ev_eq_bot,
    maxBotIzq, maxBotDer, minTopIzq, minTopDer]

/-- Induction over a tree from induction hypotheses on every child. -/
theorem nodoInd (P : Nodo → Prop)
    (h : ∀ i v hs m p, (∀ c ∈ hs, P c) → P (.mk i v hs m p)) : ∀ t, P t
  | .mk i v hs m p => h i v hs m p (fun c hc => nodoInd P h c)
termination_by t => sizeOf t
decreasing_by
  have hlt := List.sizeOf_lt_sizeOf_of_mem hc
  simp only [Nodo.mk.sizeOf_spec]
  omega

/-- bienFormadoList is the pointwise conjunction of bienFormado. -/
theorem bienFormadoList_iff {l : List Nodo} :
    bienFormadoList l = true ↔ ∀ c ∈ l, bienFormado c = true := by
  induction l with
  | nil => simp [bienFormadoList]
  | cons c rest ih => simp [bienFormadoList, Bool.and_eq_true, ih]

/-- sinPodadosList is the pointwise conjunction of sinPodados. -/
theorem sinPodadosList_iff {l : List Nodo} :
    sinPodadosList l = true ↔ ∀ c ∈ l, sinPodados c = true := by
  induction l with
  | nil => simp [sinPodadosList]
  | cons c rest ih => simp [sinPodadosList, Bool.and_eq_true, ih]

/-- todoPodadoList is the pointwise conjunction of todoPodado. -/
theorem todoPodadoList_iff {l : List Nodo} :
    todoPodadoList l = true ↔ ∀ c ∈ l, todoPodado c = true := by
  induction l with
  | nil => simp [todoPodadoList]
  | cons c rest ih => simp [todoPodadoList, Bool.and_eq_true, ih]

/-- podadoCerradoList is the pointwise conjunction of podadoCerrado. -/
theorem podadoCerradoList_iff {l : List Nodo} :
    podadoCerradoList l = true ↔ ∀ c ∈ l, podadoCerrado c = true := by
  induction l with
  | nil => simp [podadoCerradoList]
  | cons c rest ih => simp [podadoCerradoList, Bool.and_eq_true, ih]

/-- internosSinValorList is the pointwise conjunction of internosSinValor. -/
theorem internosSinValorList_iff {l : List Nodo} :
    internosSinValorList l = true ↔ ∀ c ∈ l, internosSinValor c = true := by
  induction l with
  | nil => simp [internosSinValorList]
  | cons c rest ih => simp [internosSinValorList, Bool.and_eq_true, ih]

/-- podadoSinValorList is the pointwise conjunction of podadoSinValor. -/
theorem podadoSinValorList_iff {l : List Nodo} :
    podadoSinValorList l = true ↔ ∀ c ∈ l, podadoSinValor c = true := by
  induction l with
  | nil => simp [podadoSinValorList]
  | cons c rest ih => simp [podadoSinValorList, Bool.and_eq_true, ih]

/-- marcaList maps marca_podado over the list. -/
theorem marcaList_eq_map (l : List Nodo) : marcaList l = l.map marca_podado := by
  induction l with
  | nil => rfl
  | cons c rest ih => simp [marcaList, ih]

/-- marcaList distributes over appending. -/
theorem marcaList_append (l1 l2 : List Nodo) :
    marcaList (l1 ++ l2) = marcaList l1 ++ marcaList l2 := by
  simp [marcaList_eq_map]

/-- marcaList commutes with reversal. -/
theorem marcaList_reverse (l : List Nodo) :
    marcaList l.reverse = (marcaList l).reverse := by
  simp [marcaList_eq_map]

/-- marcaList preserves the length of the list. -/
theorem marcaList_length (l : List Nodo) :
    (marcaList l).length = l.length := by
  simp [marcaList_eq_map]

/-- marca_podado is idempotent. -/
theorem marca_podado_idem : ∀ t, marca_podado (marca_podado t) = marca_podado t := by
  have hl : ∀ l : List Nodo, (∀ c ∈ l, marca_podado (marca_podado c) = marca_podado c) →
      marcaList (marcaList l) = marcaList l := by
    intro l hl
    induction l with
    | nil => rfl
    | cons c rest ih =>
      simp only [marcaList]
      rw [hl c (by simp), ih (fun c hc => hl c (by simp [hc]))]
  intro t
  induction t using nodoInd with
  | h i v hs m p ih =>
    simp only [marca_podado]
    rw [hl hs ih]

/-- marcaList is idempotent. -/
theorem marcaList_idem (l : List Nodo) : marcaList (marcaList l) = marcaList l := by
  induction l with
  | nil => rfl
  | cons c rest ih => simp [marcaList, marca_podado_idem, ih]

/-- After marca_podado the whole subtree is pruned. -/
theorem todoPodado_marca : ∀ t, todoPodado (marca_podado t) = true := by
  have hl : ∀ l : List Nodo, (∀ c ∈ l, todoPodado (marca_podado c) = true) →
      todoPodadoList (marcaList l) = true := by
    intro l hl
    induction l with
    | nil => rfl
    | cons c rest ih =>
      simp only [marcaList, todoPodadoList, Bool.and_eq_true]
      exact ⟨hl c (by simp), ih (fun c hc => hl c (by simp [hc]))⟩
  intro t
  induction t using nodoInd with
  | h i v hs m p ih =>
    simp only [marca_podado, todoPodado, Bool.and_eq_true, true_and]
    exact hl hs ih

/-- marca_podado changes nothing but the podado flags. -/
theorem borra_marca : ∀ t, borraPodado (marca_podado t) = borraPodado t := by
  have hl : ∀ l : List Nodo, (∀ c ∈ l, borraPodado (marca_podado c) = borraPodado c) →
      borraPodadoList (marcaList l) = borraPodadoList l := by
    intro l hl
    induction l with
    | nil => rfl
    | cons c rest ih =>
      simp only [marcaList, borraPodadoList]
      rw [hl c (by simp), ih (fun c hc => hl c (by simp [hc]))]
  intro t
  induction t using nodoInd with
  | h i v hs m p ih =>
    simp only [marca_podado, borraPodado]
    rw [hl hs ih]

/-- A fully pruned tree is downward closed. -/
theorem cerrado_de_todoPodado : ∀ t, todoPodado t = true → podadoCerrado t = true := by
  intro t
  induction t using nodoInd with
  | h i v hs m p ih =>
    simp only [todoPodado, podadoCerrado, Bool.and_eq_true, Bool.or_eq_true]
    rintro ⟨hp, hlist⟩
    refine ⟨Or.inr hlist, ?_⟩
    rw [podadoCerradoList_iff]
    intro c hc
    exact ih c hc (todoPodadoList_iff.mp hlist c hc)

/-- A tree without pruned nodes is downward closed. -/
theorem cerrado_de_sinPodados : ∀ t, sinPodados t = true → podadoCerrado t = true := by
  intro t
  induction t using nodoInd with
  | h i v hs m p ih =>
    simp only [sinPodados, podadoCerrado, Bool.and_eq_true, Bool.or_eq_true,
      Bool.not_eq_true']
    rintro ⟨hp, hlist⟩
    refine ⟨Or.inl (by simp [hp]), ?_⟩
    rw [podadoCerradoList_iff]
    intro c hc
    exact ih c hc (sinPodadosList_iff.mp hlist c hc)

/-- Marking a tree whose internal nodes have no value yields a tree whose
pruned internal nodes have no value. -/
theorem podadoSinValor_marca :
    ∀ t, internosSinValor t = true → podadoSinValor (marca_podado t) = true := by
  intro t
  induction t using nodoInd with
  | h i v hs m p ih =>
    simp only [internosSinValor, marca_podado, podadoSinValor, Bool.and_eq_true,
      Bool.or_eq_true]
    rintro ⟨hv, hlist⟩
    constructor
    · rcases hv with hv | hv
      · left
        simp only [Bool.not_eq_true', Bool.and_eq_false_iff, Bool.not_eq_false]
        right
        rw [List.isEmpty_iff] at hv
        simp [hv, marcaList]
      · right; exact hv
    · rw [podadoSinValorList_iff]
      intro c hc
      rw [marcaList_eq_map] at hc
      rcases List.mem_map.mp hc with ⟨c0, hc0, rfl⟩
      exact ih c0 hc0 (internosSinValorList_iff.mp hlist c0 hc0)

/-- marca_podado preserves the leaf values of the tree. -/
theorem valoresHojas_marca : ∀ t, valoresHojas (marca_podado t) = valoresHojas t := by
  have hl : ∀ l : List Nodo, (∀ c ∈ l, valoresHojas (marca_podado c) = valoresHojas c) →
      valoresHojasList (marcaList l) = valoresHojasList l := by
    intro l hl
    induction l with
    | nil => rfl
    | cons c rest ih =>
      simp only [marcaList, valoresHojasList]
      rw [hl c (by simp), ih (fun c hc => hl c (by simp [hc]))]
  intro t
  induction t using nodoInd with
  | h i v hs m p ih =>
    simp only [marca_podado, valoresHojas]
    rcases h0 : hs.isEmpty with h0 | h0
    · simp only [Bool.false_eq_true, if_false] at *
      have : (marcaList hs).isEmpty = false := by
        rw [List.isEmpty_eq_false_iff_exists_mem] at h0 ⊢
        rcases h0 with ⟨x, hx⟩
        exact ⟨marca_podado x, by rw [marcaList_eq_map]; exact List.mem_map_of_mem _ hx⟩
      simp only [this, Bool.false_eq_true, if_false]
      exact hl hs ih
    · rw [List.isEmpty_iff] at h0
      simp [h0, marcaList]

/-- Folding max pulls the left component of the start out of the fold. -/
theorem foldPullMax {A : Type} [LinearOrder A] (ms : List A) (v w : A) :
    List.foldl max (max v w) ms = max v (List.foldl max w ms) := by
  induction ms generalizing w with
  | nil => rfl
  | cons x xs ih => simp only [List.foldl_cons]; rw [max_assoc, ih]

/-- Folding min pulls the left component of the start out of the fold. -/
theorem foldPullMin {A : Type} [LinearOrder A] (ms : List A) (v w : A) :
    List.foldl min (min v w) ms = min v (List.foldl min w ms) := by
  induction ms generalizing w with
  | nil => rfl
  | cons x xs ih => simp only [List.foldl_cons]; rw [min_assoc, ih]

/-- The start is below a fold of max. -/
theorem le_foldlMax {A : Type} [LinearOrder A] (ms : List A) (v : A) :
    v ≤ List.foldl max v ms := by
  induction ms generalizing v with
  | nil => exact le_refl v
  | cons x xs ih => exact le_trans (le_max_left v x) (ih (max v x))

/-- Every element is below a fold of max. -/
theorem mem_le_foldlMax {A : Type} [LinearOrder A] {ms : List A} {x : A}
    (hx : x ∈ ms) (v : A) : x ≤ List.foldl max v ms := by
  induction ms generalizing v with
  | nil => cases hx
  | cons y ys ih =>
    rcases List.mem_cons.mp hx with rfl | hmem
    · exact le_trans (le_max_right v x) (le_foldlMax ys (max v x))
    · exact ih hmem (max v y)

/-- The start is above a fold of min. -/
theorem foldlMin_le {A : Type} [LinearOrder A] (ms : List A) (v : A) :
    List.foldl min v ms ≤ v := by
  induction ms generalizing v with
  | nil => exact le_refl v
  | cons x xs ih => exact le_trans (ih (min v x)) (min_le_left v x)

/-- Every element is above a fold of min. -/
theorem foldlMin_le_mem {A : Type} [LinearOrder A] {ms : List A} {x : A}
    (hx : x ∈ ms) (v : A) : List.foldl min v ms ≤ x := by
  induction ms generalizing v with
  | nil => cases hx
  | cons y ys ih =>
    rcases List.mem_cons.mp hx with rfl | hmem
    · exact le_trans (foldlMin_le ys (min v x)) (min_le_right v x)
    · exact ih hmem (min v y)

/-- A fold of max over the reversed list equals the fold over the list. -/
theorem foldRevMax {A : Type} [LinearOrder A] (ms : List A) (v : A) :
    List.foldl max v ms.reverse = List.foldl max v ms := by
  induction ms generalizing v with
  | nil => rfl
  | cons x xs ih =>
    simp only [List.reverse_cons, List.foldl_append, List.foldl_cons,
      List.foldl_nil]
    rw [ih v, max_comm v x, foldPullMax, max_comm]

/-- A fold of min over the reversed list equals the fold over the list. -/
theorem foldRevMin {A : Type} [LinearOrder A] (ms : List A) (v : A) :
    List.foldl min v ms.reverse = List.foldl min v ms := by
  induction ms generalizing v with
  | nil => rfl
  | cons x xs ih =>
    simp only [List.reverse_cons, List.foldl_append, List.foldl_cons,
      List.foldl_nil]
    rw [ih v, min_comm v x, foldPullMin, min_comm]

/-- Inversion of minimaxLista on a cons. -/
theorem minimaxLista_cons {c : Nodo} {rest : List Nodo} {ms : List EV} :
    minimaxLista (c :: rest) = some ms ↔
      ∃ x xs, minimaxSpec c = some x ∧ minimaxLista rest = some xs ∧
        ms = x :: xs := by
  cases h1 : minimaxSpec c <;> cases h2 : minimaxLista rest <;>
    simp [minimaxLista, h1, h2] <;> tauto

/-- minimaxLista on an appended list combines the two halves. -/
theorem minimaxLista_append (l1 l2 : List Nodo) :
    minimaxLista (l1 ++ l2) =
      (minimaxLista l1).bind (fun a => (minimaxLista l2).map (a ++ ·)) := by
  induction l1 with
  | nil =>
    cases h : minimaxLista l2 <;> simp [minimaxLista, h]
  | cons c rest ih =>
    cases h1 : minimaxSpec c <;>
      cases h2 : minimaxLista rest <;>
        cases h3 : minimaxLista l2 <;>
          rw [h2, h3] at ih <;>
            simp [List.cons_append, minimaxLista, h1, h2, h3, ih]

/-- minimaxLista of the reversed list is the reversed value list. -/
theorem minimaxLista_reverse (l : List Nodo) :
    minimaxLista l.reverse = (minimaxLista l).map List.reverse := by
  induction l with
  | nil => simp [minimaxLista]
  | cons c rest ih =>
    simp only [List.reverse_cons, minimaxLista_append, ih, minimaxLista]
    cases h1 : minimaxSpec c <;> cases h2 : minimaxLista rest <;> simp [minimaxLista]

/-- On a well formed tree the full minimax traversal succeeds. -/
theorem mm_exito : ∀ t, bienFormado t = true → ∃ m, minimaxSpec t = some m := by
  have hl : ∀ l : List Nodo,
      (∀ c ∈ l, bienFormado c = true → ∃ m, minimaxSpec c = some m) →
      bienFormadoList l = true → ∃ ms, minimaxLista l = some ms := by
    intro l hl hwf
    induction l with
    | nil => exact ⟨[], rfl⟩
    | cons c rest ih =>
      simp only [bienFormadoList, Bool.and_eq_true] at hwf
      rcases hl c (by simp) hwf.1 with ⟨m, hm⟩
      rcases ih (fun c hc => hl c (by simp [hc])) hwf.2 with ⟨ms, hms⟩
      exact ⟨m :: ms, by simp [minimaxLista, hm, hms]⟩
  intro t
  induction t using nodoInd with
  | h i v hs m p ih =>
    intro hwf
    simp only [bienFormado] at hwf
    rcases h0 : hs.isEmpty with h0 | h0
    · simp only [h0, Bool.false_eq_true, if_false] at hwf
      rcases hl hs ih hwf with ⟨ms, hms⟩
      refine ⟨if m then ms.foldl max ⊥ else ms.foldl min ⊤, ?_⟩
      simp [minimaxSpec, h0, hms]
    · simp only [h0, if_true] at hwf
      rcases Option.isSome_iff_exists.mp hwf with ⟨x, hx⟩
      exact ⟨x, by simp [minimaxSpec, h0, hx]⟩

/-- Clamping commutes below the window bound. -/
theorem clampComm {A : Type} [LinearOrder A] {a b : A} (hab : a ≤ b) (x : A) :
    max a (min b x) = min b (max a x) := by
  rw [max_min_distrib_left, max_eq_right hab]

/-- A maximum with a smaller element reaching b forces the other side to b. -/
theorem eqMaxDer {A : Type} [LinearOrder A] {a b x : A} (hab : a < b)
    (h : max a x = b) : x = b := by
  rcases le_total x a with hx | hx
  · rw [max_eq_left hx] at h
    exact absurd h hab.ne
  · rwa [max_eq_right hx] at h

/-- A minimum with a larger element reaching a forces the other side to a. -/
theorem eqMinIzq {A : Type} [LinearOrder A] {a b x : A} (hab : a < b)
    (h : min b x = a) : x = a := by
  rcases le_total b x with hx | hx
  · rw [min_eq_left hx] at h
    exact absurd h.symm hab.ne
  · rwa [min_eq_right hx] at h

/-- Absorption of a dominated term in a chain of maxima. -/
theorem absMax {A : Type} [LinearOrder A] {w z : A} (h : w ≤ z) (a : A) :
    max (max a w) z = max a z := by
  rw [max_assoc, max_eq_right h]

/-- Absorption of a dominating term in a chain of minima. -/
theorem absMin {A : Type} [LinearOrder A] {w z : A} (h : z ≤ w) (b : A) :
    min (min b w) z = min b z := by
  rw [min_assoc, min_eq_right h]

/-- Rearrangement of a four term chain of maxima. -/
theorem maxACa {A : Type} [LinearOrder A] (a v r d : A) :
    max a (max (max v r) d) = max (max a r) (max v d) := by
  simp only [max_comm, max_assoc, max_left_comm]

/-- Rearrangement of a four term chain of maxima, second form. -/
theorem maxACb {A : Type} [LinearOrder A] (a x v d : A) :
    max (max a x) (max v d) = max a (max (max v x) d) := by
  simp only [max_comm, max_assoc, max_left_comm]

/-- Rearrangement of a four term chain of minima. -/
theorem minACa {A : Type} [LinearOrder A] (b v r u : A) :
    min b (min (min v r) u) = min (min b r) (min v u) := by
  simp only [min_comm, min_assoc, min_left_comm]

/-- Rearrangement of a four term chain of minima, second form. -/
theorem minACb {A : Type} [LinearOrder A] (b x v u : A) :
    min (min b x) (min v u) = min b (min (min v x) u) := by
  simp only [min_comm, min_assoc, min_left_comm]

/-- The key exchange step of the alpha-beta correctness argument on a MAX
node: below the window bound, the evaluated value of a child can be replaced
by its minimax value inside the running fold. -/
theorem stepIdMax {A : Type} [LinearOrder A] {a b v rc mc : A} (hab : a < b)
    (hv : v < b) (hrc : rc < b) (h : max a rc = max a (min b mc)) (d : A) :
    max a (min b (max (max v rc) d)) = max a (min b (max (max v mc) d)) := by
  conv_rhs => rw [min_max_distrib_left, min_max_distrib_left,
    min_eq_right hv.le]
  rw [min_max_distrib_left, min_max_distrib_left, min_eq_right hv.le,
    min_eq_right hrc.le, maxACa, h, maxACb]

/-- The key exchange step of the alpha-beta correctness argument on a MIN
node, dual to stepIdMax. -/
theorem stepIdMin {A : Type} [LinearOrder A] {a b v rc mc : A} (hab : a < b)
    (hv : a < v) (hrc : a < rc) (h : min b rc = min b (max a mc)) (u : A) :
    min b (max a (min (min v rc) u)) = min b (max a (min (min v mc) u)) := by
  conv_rhs => rw [max_min_distrib_left, max_min_distrib_left,
    max_eq_right hv.le]
  rw [max_min_distrib_left, max_min_distrib_left, max_eq_right hv.le,
    max_eq_right hrc.le, minACa, h, minACb]

/-- Folding max from a start equals the start joined with the bottom fold. -/
theorem foldBaseMaxEV (ms : List EV) (w : EV) :
    List.foldl max w ms = max w (List.foldl max ⊥ ms) := by
  rw [← foldPullMax ms w ⊥, maxBotDer]

/-- Folding min from a start equals the start met with the top fold. -/
theorem foldBaseMinEV (ms : List EV) (w : EV) :
    List.foldl min w ms = min w (List.foldl min ⊤ ms) := by
  rw [← foldPullMin ms w ⊤, minTopDer]

/-- Window property of the MAX child loop of alfa_beta: the loop succeeds and
its result agrees, inside the window, with the fold of the children's minimax
values over the running maximum. -/
theorem abMaxLoop_window (b : EV) :
    ∀ (cs : List Nodo),
      (∀ c ∈ cs, ∀ a m, a < b → minimaxSpec c = some m →
        ∃ rc c', alfa_beta c a b = some (rc, c') ∧
          max a (min b rc) = max a (min b m)) →
      ∀ a v ms, a < b → v < b → minimaxLista cs = some ms →
      ∃ vfin cs', abMaxLoop cs a b v = some (vfin, cs') ∧ v ≤ vfin ∧
        max a (min b vfin) = max a (min b (List.foldl max v ms)) := by
  intro cs
  induction cs with
  | nil =>
    intro _ a v ms hab hv hms
    simp only [minimaxLista, Option.some_inj] at hms
    subst hms
    exact ⟨v, [], rfl, le_refl v, rfl⟩
  | cons c rest ih =>
    intro hIH a v ms hab hv hms
    rcases minimaxLista_cons.mp hms with ⟨mc, msr, hmc, hmsr, rfl⟩
    rcases hIH c (by simp) a mc hab hmc with ⟨rc, c', heval, hwin⟩
    simp only [abMaxLoop, heval, ge_iff_le]
    rcases le_or_lt b (max a (max v rc)) with hcut | hcut
    · rw [if_pos hcut]
      have hbrc : b ≤ rc := by
        by_contra hno
        push_neg at hno
        exact absurd hcut (not_le.mpr (max_lt hab (max_lt hv hno)))
      have hmcb : b ≤ mc := by
        rw [min_eq_left hbrc, max_eq_right hab.le] at hwin
        exact min_eq_left_iff.mp (eqMaxDer hab hwin.symm)
      refine ⟨max v rc, c' :: marcaList rest, rfl, le_max_left v rc, ?_⟩
      rw [max_eq_right (le_trans hv.le hbrc), min_eq_left hbrc,
        List.foldl_cons,
        min_eq_left (le_trans hmcb (le_trans (le_max_right v mc)
          (le_foldlMax msr (max v mc))))]
    · rw [if_neg (not_le.mpr hcut)]
      have hrc : rc < b := lt_of_le_of_lt (le_max_right v rc)
        (lt_of_le_of_lt (le_max_right a (max v rc)) hcut)
      have hvp : max v rc < b := lt_of_le_of_lt (le_max_right a (max v rc)) hcut
      rcases ih (fun c hc => hIH c (by simp [hc])) (max a (max v rc))
          (max v rc) msr hcut hvp hmsr with ⟨vfin, cs2, heval2, hmono, hwin2⟩
      rw [heval2]
      refine ⟨vfin, c' :: cs2, rfl, le_trans (le_max_left v rc) hmono, ?_⟩
      have habs : max v rc ≤ min b vfin :=
        le_min (lt_of_le_of_lt (le_max_right a _) hcut).le hmono
      have h1 : max a (min b vfin) = max (max a (max v rc)) (min b vfin) :=
        (absMax habs a).symm
      rw [h1, hwin2, List.foldl_cons, foldBaseMaxEV msr (max v rc),
        foldBaseMaxEV msr (max v mc)]
      have habs2 : max v rc ≤ min b (max (max v rc) (List.foldl max ⊥ msr)) :=
        le_min hvp.le (le_max_left _ _)
      rw [absMax habs2 a]
      rw [min_eq_right hrc.le] at hwin
      exact stepIdMax hab hv hrc hwin (List.foldl max ⊥ msr)

/-- Window property of the MIN child loop of alfa_beta, dual to the MAX
loop. -/
theorem abMinLoop_window (a : EV) :
    ∀ (cs : List Nodo),
      (∀ c ∈ cs, ∀ b m, a < b → minimaxSpec c = some m →
        ∃ rc c', alfa_beta c a b = some (rc, c') ∧
          max a (min b rc) = max a (min b m)) →
      ∀ b v ms, a < b → a < v → minimaxLista cs = some ms →
      ∃ vfin cs', abMinLoop cs a b v = some (vfin, cs') ∧ vfin ≤ v ∧
        min b (max a vfin) = min b (max a (List.foldl min v ms)) := by
  intro cs
  induction cs with
  | nil =>
    intro _ b v ms hab hv hms
    simp only [minimaxLista, Option.some_inj] at hms
    subst hms
    exact ⟨v, [], rfl, le_refl v, rfl⟩
  | cons c rest ih =>
    intro hIH b v ms hab hv hms
    rcases minimaxLista_cons.mp hms with ⟨mc, msr, hmc, hmsr, rfl⟩
    rcases hIH c (by simp) b mc hab hmc with ⟨rc, c', heval, hwin⟩
    rw [clampComm hab.le rc, clampComm hab.le mc] at hwin
    simp only [abMinLoop, heval, ge_iff_le]
    rcases le_or_lt (min b (min v rc)) a with hcut | hcut
    · rw [if_pos hcut]
      have hrca : rc ≤ a := by
        by_contra hno
        push_neg at hno
        exact absurd hcut (not_le.mpr (lt_min hab (lt_min hv hno)))
      have hmca : mc ≤ a := by
        rw [max_eq_left hrca, min_eq_right hab.le] at hwin
        exact max_eq_left_iff.mp (eqMinIzq hab hwin.symm)
      refine ⟨min v rc, c' :: marcaList rest, rfl, min_le_left v rc, ?_⟩
      have hfin : min v rc ≤ a := le_trans (min_le_right v rc) hrca
      rw [max_eq_left hfin, List.foldl_cons]
      have hfold : List.foldl min (min v mc) msr ≤ a :=
        le_trans (le_trans (foldlMin_le msr (min v mc)) (min_le_right v mc)) hmca
      rw [max_eq_left hfold]
    · rw [if_neg (not_le.mpr hcut)]
      have hrc : a < rc := lt_of_lt_of_le hcut
        (le_trans (min_le_right b (min v rc)) (min_le_right v rc))
      have hvp : a < min v rc := lt_of_lt_of_le hcut (min_le_right b (min v rc))
      rcases ih (fun c hc => hIH c (by simp [hc])) (min b (min v rc))
          (min v rc) msr hcut hvp hmsr with ⟨vfin, cs2, heval2, hmono, hwin2⟩
      rw [heval2]
      refine ⟨vfin, c' :: cs2, rfl, le_trans hmono (min_le_left v rc), ?_⟩
      have habs : max a vfin ≤ min v rc :=
        max_le hvp.le hmono
      have h1 : min b (max a vfin) = min (min b (min v rc)) (max a vfin) :=
        (absMin habs b).symm
      rw [h1, hwin2, List.foldl_cons, foldBaseMinEV msr (min v rc),
        foldBaseMinEV msr (min v mc)]
      have habs2 : max a (min (min v rc) (List.foldl min ⊤ msr)) ≤ min v rc :=
        max_le hvp.le (min_le_left _ _)
      rw [absMin habs2 b]
      rw [max_eq_right hrc.le] at hwin
      exact stepIdMin hab hv hrc hwin (List.foldl min ⊤ msr)

/-- Window property of alfa_beta on well formed trees: the evaluation
succeeds and, clamped to the window, returns the minimax value. -/
theorem ventana_alfa_beta : ∀ t, bienFormado t = true →
    ∀ a b m, a < b → minimaxSpec t = some m →
    ∃ r t', alfa_beta t a b = some (r, t') ∧
      max a (min b r) = max a (min b m) := by
  intro t
  induction t using nodoInd with
  | h i v hs esMax p ih =>
    intro hwf a b m hab hm
    cases h0 : hs.isEmpty with
    | true =>
      simp only [bienFormado, h0, if_true] at hwf
      simp only [minimaxSpec, h0, if_true] at hm
      exact ⟨m, .mk i v hs esMax p, by simp [alfa_beta, h0, hm], rfl⟩
    | false =>
      simp only [bienFormado, h0, Bool.false_eq_true, if_false] at hwf
      simp only [minimaxSpec, h0, Bool.false_eq_true, if_false] at hm
      rcases Option.map_eq_some'.mp hm with ⟨ms, hms, hfm⟩
      have hIH : ∀ c ∈ hs, ∀ a2 m2, a2 < b → minimaxSpec c = some m2 →
          ∃ rc c', alfa_beta c a2 b = some (rc, c') ∧
            max a2 (min b rc) = max a2 (min b m2) := by
        intro c hc a2 m2 ha2 hm2
        exact ih c hc (bienFormadoList_iff.mp hwf c hc) a2 b m2 ha2 hm2
      cases hesm : esMax with
      | true =>
        rcases abMaxLoop_window b hs hIH a ⊥ ms hab
            (lt_of_le_of_lt bot_le hab) hms with ⟨vfin, cs', heval, _, hwin⟩
        refine ⟨vfin, .mk i (some vfin) cs' true p, ?_, ?_⟩
        · simp [alfa_beta, h0, heval]
        · rw [hwin, ← hfm, hesm]
          norm_num
      | false =>
        have hIH2 : ∀ c ∈ hs, ∀ b2 m2, a < b2 → minimaxSpec c = some m2 →
            ∃ rc c', alfa_beta c a b2 = some (rc, c') ∧
              max a (min b2 rc) = max a (min b2 m2) := by
          intro c hc b2 m2 hb2 hm2
          exact ih c hc (bienFormadoList_iff.mp hwf c hc) a b2 m2 hb2 hm2
        rcases abMinLoop_window a hs hIH2 b ⊤ ms hab
            (lt_of_lt_of_le hab le_top) hms with ⟨vfin, cs', heval, _, hwin⟩
        refine ⟨vfin, .mk i (some vfin) cs' false p, ?_, ?_⟩
        · simp [alfa_beta, h0, heval]
        · rw [clampComm hab.le, clampComm hab.le, hwin, ← hfm, hesm]
          norm_num

/-- Window property of the MAX child loop of alfa_beta_reverso: the same
value property as the forward loop, for any current child list state. -/
theorem abrMaxLoop_window (b : EV) :
    ∀ (cs : List Nodo),
      (∀ c ∈ cs, ∀ a m, a < b → minimaxSpec c = some m →
        ∃ rc c', alfa_beta_reverso c a b = some (rc, c') ∧
          max a (min b rc) = max a (min b m)) →
      ∀ cur a v ms, a < b → v < b → minimaxLista cs = some ms →
      ∃ vfin cur', abrMaxLoop cs cur a b v = some (vfin, cur') ∧ v ≤ vfin ∧
        max a (min b vfin) = max a (min b (List.foldl max v ms)) := by
  intro cs
  induction cs with
  | nil =>
    intro _ cur a v ms hab hv hms
    simp only [minimaxLista, Option.some_inj] at hms
    subst hms
    exact ⟨v, cur, by rw [abrMaxLoop], le_refl v, rfl⟩
  | cons c rest ih =>
    intro hIH cur a v ms hab hv hms
    rcases minimaxLista_cons.mp hms with ⟨mc, msr, hmc, hmsr, rfl⟩
    rcases hIH c (by simp) a mc hab hmc with ⟨rc, c', heval, hwin⟩
    simp only [abrMaxLoop, heval, ge_iff_le]
    rcases le_or_lt b (max a (max v rc)) with hcut | hcut
    · rw [if_pos hcut]
      have hbrc : b ≤ rc := by
        by_contra hno
        push_neg at hno
        exact absurd hcut (not_le.mpr (max_lt hab (max_lt hv hno)))
      have hmcb : b ≤ mc := by
        rw [min_eq_left hbrc, max_eq_right hab.le] at hwin
        exact min_eq_left_iff.mp (eqMaxDer hab hwin.symm)
      refine ⟨max v rc, _, rfl, le_max_left v rc, ?_⟩
      rw [max_eq_right (le_trans hv.le hbrc), min_eq_left hbrc,
        List.foldl_cons,
        min_eq_left (le_trans hmcb (le_trans (le_max_right v mc)
          (le_foldlMax msr (max v mc))))]
    · rw [if_neg (not_le.mpr hcut)]
      have hrc : rc < b := lt_of_le_of_lt (le_max_right v rc)
        (lt_of_le_of_lt (le_max_right a (max v rc)) hcut)
      have hvp : max v rc < b := lt_of_le_of_lt (le_max_right a (max v rc)) hcut
      rcases ih (fun c hc => hIH c (by simp [hc]))
          (cur.set rest.length c') (max a (max v rc))
          (max v rc) msr hcut hvp hmsr with ⟨vfin, cur2, heval2, hmono, hwin2⟩
      rw [heval2]
      refine ⟨vfin, cur2, rfl, le_trans (le_max_left v rc) hmono, ?_⟩
      have habs : max v rc ≤ min b vfin :=
        le_min (lt_of_le_of_lt (le_max_right a _) hcut).le hmono
      have h1 : max a (min b vfin) = max (max a (max v rc)) (min b vfin) :=
        (absMax habs a).symm
      rw [h1, hwin2, List.foldl_cons, foldBaseMaxEV msr (max v rc),
        foldBaseMaxEV msr (max v mc)]
      have habs2 : max v rc ≤ min b (max (max v rc) (List.foldl max ⊥ msr)) :=
        le_min hvp.le (le_max_left _ _)
      rw [absMax habs2 a]
      rw [min_eq_right hrc.le] at hwin
      exact stepIdMax hab hv hrc hwin (List.foldl max ⊥ msr)

/-- Window property of the MIN child loop of alfa_beta_reverso, dual to the
MAX loop. -/
theorem abrMinLoop_window (a : EV) :
    ∀ (cs : List Nodo),
      (∀ c ∈ cs, ∀ b m, a < b → minimaxSpec c = some m →
        ∃ rc c', alfa_beta_reverso c a b = some (rc, c') ∧
          max a (min b rc) = max a (min b m)) →
      ∀ cur b v ms, a < b → a < v → minimaxLista cs = some ms →
      ∃ vfin cur', abrMinLoop cs cur a b v = some (vfin, cur') ∧ vfin ≤ v ∧
        min b (max a vfin) = min b (max a (List.foldl min v ms)) := by
  intro cs
  induction cs with
  | nil =>
    intro _ cur b v ms hab hv hms
    simp only [minimaxLista, Option.some_inj] at hms
    subst hms
    exact ⟨v, cur, by rw [abrMinLoop], le_refl v, rfl⟩
  | cons c rest ih =>
    intro hIH cur b v ms hab hv hms
    rcases minimaxLista_cons.mp hms with ⟨mc, msr, hmc, hmsr, rfl⟩
    rcases hIH c (by simp) b mc hab hmc with ⟨rc, c', heval, hwin⟩
    rw [clampComm hab.le rc, clampComm hab.le mc] at hwin
    simp only [abrMinLoop, heval, ge_iff_le]
    rcases le_or_lt (min b (min v rc)) a with hcut | hcut
    · rw [if_pos hcut]
      have hrca : rc ≤ a := by
        by_contra hno
        push_neg at hno
        exact absurd hcut (not_le.mpr (lt_min hab (lt_min hv hno)))
      have hmca : mc ≤ a := by
        rw [max_eq_left hrca, min_eq_right hab.le] at hwin
        exact max_eq_left_iff.mp (eqMinIzq hab hwin.symm)
      refine ⟨min v rc, _, rfl, min_le_left v rc, ?_⟩
      have hfin : min v rc ≤ a := le_trans (min_le_right v rc) hrca
      rw [max_eq_left hfin, List.foldl_cons]
      have hfold : List.foldl min (min v mc) msr ≤ a :=
        le_trans (le_trans (foldlMin_le msr (min v mc)) (min_le_right v mc)) hmca
      rw [max_eq_left hfold]
    · rw [if_neg (not_le.mpr hcut)]
      have hrc : a < rc := lt_of_lt_of_le hcut
        (le_trans (min_le_right b (min v rc)) (min_le_right v rc))
      have hvp : a < min v rc := lt_of_lt_of_le hcut (min_le_right b (min v rc))
      rcases ih (fun c hc => hIH c (by simp [hc]))
          (cur.set rest.length c') (min b (min v rc))
          (min v rc) msr hcut hvp hmsr with ⟨vfin, cur2, heval2, hmono, hwin2⟩
      rw [heval2]
      refine ⟨vfin, cur2, rfl, le_trans hmono (min_le_left v rc), ?_⟩
      have habs : max a vfin ≤ min v rc :=
        max_le hvp.le hmono
      have h1 : min b (max a vfin) = min (min b (min v rc)) (max a vfin) :=
        (absMin habs b).symm
      rw [h1, hwin2, List.foldl_cons, foldBaseMinEV msr (min v rc),
        foldBaseMinEV msr (min v mc)]
      have habs2 : max a (min (min v rc) (List.foldl min ⊤ msr)) ≤ min v rc :=
        max_le hvp.le (min_le_left _ _)
      rw [absMin habs2 b]
      rw [max_eq_right hrc.le] at hwin
      exact stepIdMin hab hv hrc hwin (List.foldl min ⊤ msr)

/-- Window property of alfa_beta_reverso on well formed trees: the reverse
order evaluation succeeds and, clamped to the window, also returns the
minimax value. -/
theorem ventana_alfa_beta_reverso : ∀ t, bienFormado t = true →
    ∀ a b m, a < b → minimaxSpec t = some m →
    ∃ r t', alfa_beta_reverso t a b = some (r, t') ∧
      max a (min b r) = max a (min b m) := by
  intro t
  induction t using nodoInd with
  | h i v hs esMax p ih =>
    intro hwf a b m hab hm
    cases h0 : hs.isEmpty with
    | true =>
      simp only [bienFormado, h0, if_true] at hwf
      simp only [minimaxSpec, h0, if_true] at hm
      refine ⟨m, .mk i v hs esMax p, ?_, rfl⟩
      rw [alfa_beta_reverso]
      simp [h0, hm]
    | false =>
      simp only [bienFormado, h0, Bool.false_eq_true, if_false] at hwf
      simp only [minimaxSpec, h0, Bool.false_eq_true, if_false] at hm
      rcases Option.map_eq_some'.mp hm with ⟨ms, hms, hfm⟩
      have hmsrev : minimaxLista hs.reverse = some ms.reverse := by
        rw [minimaxLista_reverse, hms]
        rfl
      cases hesm : esMax with
      | true =>
        have hIH : ∀ c ∈ hs.reverse, ∀ a2 m2, a2 < b → minimaxSpec c = some m2 →
            ∃ rc c', alfa_beta_reverso c a2 b = some (rc, c') ∧
              max a2 (min b rc) = max a2 (min b m2) := by
          intro c hc a2 m2 ha2 hm2
          rw [List.mem_reverse] at hc
          exact ih c hc (bienFormadoList_iff.mp hwf c hc) a2 b m2 ha2 hm2
        rcases abrMaxLoop_window b hs.reverse hIH hs a ⊥ ms.reverse hab
            (lt_of_le_of_lt bot_le hab) hmsrev with ⟨vfin, cs', heval, _, hwin⟩
        refine ⟨vfin, .mk i (some vfin) cs' true p, ?_, ?_⟩
        · rw [alfa_beta_reverso]
          simp [h0, heval]
        · rw [hwin, foldRevMax, ← hfm, hesm]
          norm_num
      | false =>
        have hIH2 : ∀ c ∈ hs.reverse, ∀ b2 m2, a < b2 → minimaxSpec c = some m2 →
            ∃ rc c', alfa_beta_reverso c a b2 = some (rc, c') ∧
              max a (min b2 rc) = max a (min b2 m2) := by
          intro c hc b2 m2 hb2 hm2
          rw [List.mem_reverse] at hc
          exact ih c hc (bienFormadoList_iff.mp hwf c hc) a b2 m2 hb2 hm2
        rcases abrMinLoop_window a hs.reverse hIH2 hs b ⊤ ms.reverse hab
            (lt_of_lt_of_le hab le_top) hmsrev with ⟨vfin, cs', heval, _, hwin⟩
        refine ⟨vfin, .mk i (some vfin) cs' false p, ?_, ?_⟩
        · rw [alfa_beta_reverso]
          simp [h0, heval]
        · rw [clampComm hab.le, clampComm hab.le, hwin, foldRevMin, ← hfm, hesm]
          norm_num

/-- Claim C2: on every well formed finite tree, alfa_beta called from the
root with alpha minus infinity and beta plus infinity in the forward order
succeeds and returns exactly the value of the full unpruned minimax
traversal; the pruning never changes the returned root value. -/
theorem c2_alfa_beta_igual_minimax : ∀ t, bienFormado t = true →
    ∃ v t', alfa_beta t ⊥ ⊤ = some (v, t') ∧ minimaxSpec t = some v := by
  intro t hwf
  rcases mm_exito t hwf with ⟨m, hm⟩
  have hbt : (⊥ : EV) < ⊤ :=
    lt_of_le_of_lt bot_le ((by rw [ev_lt_ev]; omega : ev 0 < ev 1).trans_le le_top)
  rcases ventana_alfa_beta t hwf ⊥ ⊤ m hbt hm with ⟨r, t', heval, hwin⟩
  rw [minTopIzq, minTopIzq, maxBotIzq, maxBotIzq] at hwin
  exact ⟨m, t', hwin ▸ heval, hm⟩

/-- Witness of claim C2 at the concrete scenario tree. -/
theorem c2_testigo :
    ∃ v t', alfa_beta arbolEscenario ⊥ ⊤ = some (v, t') ∧
      minimaxSpec arbolEscenario = some v :=
  c2_alfa_beta_igual_minimax arbolEscenario rfl

/-- Claim C3: on every well formed finite tree, the forward and the reverse
order evaluations, each started with alpha minus infinity and beta plus
infinity, return the same root value, although the sets of pruned nodes of
the two final trees may differ. -/
theorem c3_ordenes_mismo_valor : ∀ t, bienFormado t = true →
    ∃ v t1 t2, alfa_beta t ⊥ ⊤ = some (v, t1) ∧
      alfa_beta_reverso t ⊥ ⊤ = some (v, t2) := by
  intro t hwf
  rcases mm_exito t hwf with ⟨m, hm⟩
  have hbt : (⊥ : EV) < ⊤ := by
    exact lt_of_le_of_lt bot_le ((by rw [ev_lt_ev]; omega : ev 0 < ev 1).trans_le le_top)
  rcases ventana_alfa_beta t hwf ⊥ ⊤ m hbt hm with ⟨r1, t1, heval1, hwin1⟩
  rcases ventana_alfa_beta_reverso t hwf ⊥ ⊤ m hbt hm with ⟨r2, t2, heval2, hwin2⟩
  rw [minTopIzq, minTopIzq, maxBotIzq, maxBotIzq] at hwin1 hwin2
  exact ⟨m, t1, t2, hwin1 ▸ heval1, hwin2 ▸ heval2⟩

/-- Witness of claim C3 at the concrete scenario tree. -/
theorem c3_testigo :
    ∃ v t1 t2, alfa_beta arbolEscenario ⊥ ⊤ = some (v, t1) ∧
      alfa_beta_reverso arbolEscenario ⊥ ⊤ = some (v, t2) :=
  c3_ordenes_mismo_valor arbolEscenario rfl

/-- valoresHojasList distributes over appending. -/
theorem vhlList_append (l1 l2 : List Nodo) :
    valoresHojasList (l1 ++ l2) = valoresHojasList l1 ++ valoresHojasList l2 := by
  induction l1 with
  | nil => rfl
  | cons c rest ih => simp [valoresHojasList, ih, List.append_assoc]

/-- valoresHojasList is not changed by marcaList. -/
theorem vhl_marcaList (l : List Nodo) :
    valoresHojasList (marcaList l) = valoresHojasList l := by
  induction l with
  | nil => rfl
  | cons c rest ih => simp only [marcaList, valoresHojasList, ih,
      valoresHojas_marca]

/-- Setting the element just after a prefix of known length. -/
theorem setMid (l1 : List Nodo) (x : Nodo) (l2 : List Nodo) (y : Nodo) :
    (l1 ++ x :: l2).set l1.length y = l1 ++ y :: l2 := by
  induction l1 with
  | nil => rfl
  | cons a rest ih => simp only [List.cons_append, List.length_cons,
      List.set_cons_succ, ih]

/-- Taking the prefix through the element just after a prefix of known
length. -/
theorem takeMid (l1 : List Nodo) (x : Nodo) (l2 : List Nodo) :
    (l1 ++ x :: l2).take (l1.length + 1) = l1 ++ [x] := by
  induction l1 with
  | nil => rfl
  | cons a rest ih => simp only [List.cons_append, List.length_cons,
      List.take_succ_cons, ih]

/-- Dropping through the element just after a prefix of known length. -/
theorem dropMid (l1 : List Nodo) (x : Nodo) (l2 : List Nodo) :
    (l1 ++ x :: l2).drop (l1.length + 1) = l2 := by
  induction l1 with
  | nil => rfl
  | cons a rest ih => simp only [List.cons_append, List.length_cons,
      List.drop_succ_cons, ih]

/-- Membership in marcaList comes from marking a member. -/
theorem mem_marcaList {x : Nodo} {l : List Nodo} (hx : x ∈ marcaList l) :
    ∃ y ∈ l, x = marca_podado y := by
  rw [marcaList_eq_map] at hx
  rcases List.mem_map.mp hx with ⟨y, hy, rfl⟩
  exact ⟨y, hy, rfl⟩

/-- The MAX loop of alfa_beta preserves the length of the child list. -/
theorem abMaxLoop_longitud :
    ∀ (cs : List Nodo) (a b v : EV) (vfin : EV) (cs' : List Nodo),
      abMaxLoop cs a b v = some (vfin, cs') → cs'.length = cs.length := by
  intro cs
  induction cs with
  | nil =>
    intro a b v vfin cs' heq
    simp only [abMaxLoop, Option.some_inj, Prod.mk.injEq] at heq
    rw [← heq.2]
  | cons c rest ih =>
    intro a b v vfin cs' heq
    simp only [abMaxLoop] at heq
    split at heq
    · exact absurd heq (by simp)
    · next rc c' hev =>
      split at heq
      · simp only [Option.some_inj, Prod.mk.injEq] at heq
        rw [← heq.2]
        simp [marcaList_length]
      · split at heq
        · exact absurd heq (by simp)
        · next vfin2 rest2 hrec =>
          simp only [Option.some_inj, Prod.mk.injEq] at heq
          rw [← heq.2]
          simp [ih _ _ _ _ _ hrec]

/-- The MIN loop of alfa_beta preserves the length of the child list. -/
theorem abMinLoop_longitud :
    ∀ (cs : List Nodo) (a b v : EV) (vfin : EV) (cs' : List Nodo),
      abMinLoop cs a b v = some (vfin, cs') → cs'.length = cs.length := by
  intro cs
  induction cs with
  | nil =>
    intro a b v vfin cs' heq
    simp only [abMinLoop, Option.some_inj, Prod.mk.injEq] at heq
    rw [← heq.2]
  | cons c rest ih =>
    intro a b v vfin cs' heq
    simp only [abMinLoop] at heq
    split at heq
    · exact absurd heq (by simp)
    · next rc c' hev =>
      split at heq
      · simp only [Option.some_inj, Prod.mk.injEq] at heq
        rw [← heq.2]
        simp [marcaList_length]
      · split at heq
        · exact absurd heq (by simp)
        · next vfin2 rest2 hrec =>
          simp only [Option.some_inj, Prod.mk.injEq] at heq
          rw [← heq.2]
          simp [ih _ _ _ _ _ hrec]

/-- The MAX loop of alfa_beta_reverso preserves the length of the current
child list. -/
theorem abrMaxLoop_longitud :
    ∀ (cs cur : List Nodo) (a b v : EV) (vfin : EV) (cur' : List Nodo),
      abrMaxLoop cs cur a b v = some (vfin, cur') → cur'.length = cur.length := by
  intro cs
  induction cs with
  | nil =>
    intro cur a b v vfin cur' heq
    simp only [abrMaxLoop, Option.some_inj, Prod.mk.injEq] at heq
    rw [← heq.2]
  | cons c rest ih =>
    intro cur a b v vfin cur' heq
    simp only [abrMaxLoop] at heq
    split at heq
    · exact absurd heq (by simp)
    · next rc c' hev =>
      split at heq
      · simp only [Option.some_inj, Prod.mk.injEq] at heq
        rw [← heq.2]
        simp [marcaList_length]
        omega
      · exact (ih _ _ _ _ _ _ heq).trans (by simp)

/-- The MIN loop of alfa_beta_reverso preserves the length of the current
child list. -/
theorem abrMinLoop_longitud :
    ∀ (cs cur : List Nodo) (a b v : EV) (vfin : EV) (cur' : List Nodo),
      abrMinLoop cs cur a b v = some (vfin, cur') → cur'.length = cur.length := by
  intro cs
  induction cs with
  | nil =>
    intro cur a b v vfin cur' heq
    simp only [abrMinLoop, Option.some_inj, Prod.mk.injEq] at heq
    rw [← heq.2]
  | cons c rest ih =>
    intro cur a b v vfin cur' heq
    simp only [abrMinLoop] at heq
    split at heq
    · exact absurd heq (by simp)
    · next rc c' hev =>
      split at heq
      · simp only [Option.some_inj, Prod.mk.injEq] at heq
        rw [← heq.2]
        simp [marcaList_length]
        omega
      · exact (ih _ _ _ _ _ _ heq).trans (by simp)

/-- Setting at the pivot position of a reversed cons prefix. -/
theorem setRevMid (rest : List Nodo) (c : Nodo) (done : List Nodo) (y : Nodo) :
    ((c :: rest).reverse ++ done).set rest.length y = rest.reverse ++ y :: done := by
  have h1 : (c :: rest).reverse ++ done = rest.reverse ++ c :: done := by simp
  rw [h1]
  have h2 : rest.length = rest.reverse.length := by simp
  rw [h2, setMid]

/-- Taking through the pivot position of a reversed cons prefix. -/
theorem takeRevMid (rest : List Nodo) (y : Nodo) (done : List Nodo) :
    (rest.reverse ++ y :: done).take (rest.length + 1) = rest.reverse ++ [y] := by
  have h2 : rest.length = rest.reverse.length := by simp
  rw [h2, takeMid]

/-- Dropping through the pivot position of a reversed cons prefix. -/
theorem dropRevMid (rest : List Nodo) (y : Nodo) (done : List Nodo) :
    (rest.reverse ++ y :: done).drop (rest.length + 1) = done := by
  have h2 : rest.length = rest.reverse.length := by simp
  rw [h2, dropMid]

/-- The MAX loop of alfa_beta preserves the leaf values of the child list. -/
theorem abMaxLoop_vhl :
    ∀ (cs : List Nodo),
      (∀ c ∈ cs, ∀ a b r c', alfa_beta c a b = some (r, c') →
        valoresHojas c' = valoresHojas c) →
      ∀ a b v vfin cs', abMaxLoop cs a b v = some (vfin, cs') →
      valoresHojasList cs' = valoresHojasList cs := by
  intro cs
  induction cs with
  | nil =>
    intro _ a b v vfin cs' heq
    simp only [abMaxLoop, Option.some_inj, Prod.mk.injEq] at heq
    rw [← heq.2]
  | cons c rest ih =>
    intro hIH a b v vfin cs' heq
    simp only [abMaxLoop] at heq
    split at heq
    · exact absurd heq (by simp)
    · next rc c' hev =>
      split at heq
      · simp only [Option.some_inj, Prod.mk.injEq] at heq
        rw [← heq.2]
        simp only [valoresHojasList, vhl_marcaList, hIH c (by simp) _ _ _ _ hev]
      · split at heq
        · exact absurd heq (by simp)
        · next vfin2 rest2 hrec =>
          simp only [Option.some_inj, Prod.mk.injEq] at heq
          rw [← heq.2]
          simp only [valoresHojasList, hIH c (by simp) _ _ _ _ hev,
            ih (fun c hc => hIH c (by simp [hc])) _ _ _ _ _ hrec]

/-- The MIN loop of alfa_beta preserves the leaf values of the child list. -/
theorem abMinLoop_vhl :
    ∀ (cs : List Nodo),
      (∀ c ∈ cs, ∀ a b r c', alfa_beta c a b = some (r, c') →
        valoresHojas c' = valoresHojas c) →
      ∀ a b v vfin cs', abMinLoop cs a b v = some (vfin, cs') →
      valoresHojasList cs' = valoresHojasList cs := by
  intro cs
  induction cs with
  | nil =>
    intro _ a b v vfin cs' heq
    simp only [abMinLoop, Option.some_inj, Prod.mk.injEq] at heq
    rw [← heq.2]
  | cons c rest ih =>
    intro hIH a b v vfin cs' heq
    simp only [abMinLoop] at heq
    split at heq
    · exact absurd heq (by simp)
    · next rc c' hev =>
      split at heq
      · simp only [Option.some_inj, Prod.mk.injEq] at heq
        rw [← heq.2]
        simp only [valoresHojasList, vhl_marcaList, hIH c (by simp) _ _ _ _ hev]
      · split at heq
        · exact absurd heq (by simp)
        · next vfin2 rest2 hrec =>
          simp only [Option.some_inj, Prod.mk.injEq] at heq
          rw [← heq.2]
          simp only [valoresHojasList, hIH c (by simp) _ _ _ _ hev,
            ih (fun c hc => hIH c (by simp [hc])) _ _ _ _ _ hrec]

/-- The MAX loop of alfa_beta_reverso preserves the leaf values of the
current child list. -/
theorem abrMaxLoop_vhl :
    ∀ (cs : List Nodo),
      (∀ c ∈ cs, ∀ a b r c', alfa_beta_reverso c a b = some (r, c') →
        valoresHojas c' = valoresHojas c) →
      ∀ done a b v vfin L,
        abrMaxLoop cs (cs.reverse ++ done) a b v = some (vfin, L) →
        valoresHojasList L = valoresHojasList (cs.reverse ++ done) := by
  intro cs
  induction cs with
  | nil =>
    intro _ done a b v vfin L heq
    simp only [abrMaxLoop, Option.some_inj, Prod.mk.injEq] at heq
    rw [← heq.2]
  | cons c rest ih =>
    intro hIH done a b v vfin L heq
    simp only [abrMaxLoop] at heq
    split at heq
    · exact absurd heq (by simp)
    · next rc c' hev =>
      rw [setRevMid] at heq
      have hvh : valoresHojas c' = valoresHojas c := hIH c (by simp) _ _ _ _ hev
      split at heq
      · simp only [Option.some_inj, Prod.mk.injEq] at heq
        rw [← heq.2, takeRevMid, dropRevMid]
        simp [vhlList_append, vhl_marcaList, valoresHojasList, hvh]
      · have hrec := ih (fun c hc => hIH c (by simp [hc])) (c' :: done) _ _ _ _ _ heq
        rw [hrec]
        simp [vhlList_append, valoresHojasList, hvh]

/-- The MIN loop of alfa_beta_reverso preserves the leaf values of the
current child list. -/
theorem abrMinLoop_vhl :
    ∀ (cs : List Nodo),
      (∀ c ∈ cs, ∀ a b r c', alfa_beta_reverso c a b = some (r, c') →
        valoresHojas c' = valoresHojas c) →
      ∀ done a b v vfin L,
        abrMinLoop cs (cs.reverse ++ done) a b v = some (vfin, L) →
        valoresHojasList L = valoresHojasList (cs.reverse ++ done) := by
  intro cs
  induction cs with
  | nil =>
    intro _ done a b v vfin L heq
    simp only [abrMinLoop, Option.some_inj, Prod.mk.injEq] at heq
    rw [← heq.2]
  | cons c rest ih =>
    intro hIH done a b v vfin L heq
    simp only [abrMinLoop] at heq
    split at heq
    · exact absurd heq (by simp)
    · next rc c' hev =>
      rw [setRevMid] at heq
      have hvh : valoresHojas c' = valoresHojas c := hIH c (by simp) _ _ _ _ hev
      split at heq
      · simp only [Option.some_inj, Prod.mk.injEq] at heq
        rw [← heq.2, takeRevMid, dropRevMid]
        simp [vhlList_append, vhl_marcaList, valoresHojasList, hvh]
      · have hrec := ih (fun c hc => hIH c (by simp [hc])) (c' :: done) _ _ _ _ _ heq
        rw [hrec]
        simp [vhlList_append, valoresHojasList, hvh]

/-- alfa_beta preserves the leaf values of the tree. -/
theorem vhl_alfa_beta : ∀ t, ∀ a b r t', alfa_beta t a b = some (r, t') →
    valoresHojas t' = valoresHojas t := by
  intro t
  induction t using nodoInd with
  | h i v hs m p ih =>
    intro a b r t' heq
    cases h0 : hs.isEmpty with
    | true =>
      simp only [alfa_beta, h0, if_true] at heq
      rcases Option.map_eq_some'.mp heq with ⟨x, hx, hpair⟩
      simp only [Prod.mk.injEq] at hpair
      rw [← hpair.2]
    | false =>
      simp only [alfa_beta, h0, Bool.false_eq_true, if_false] at heq
      cases hm : m with
      | true =>
        rw [hm] at heq
        simp only [if_true] at heq
        rcases Option.map_eq_some'.mp heq with ⟨⟨vfin, cs'⟩, hloop, hpair⟩
        simp only [Prod.mk.injEq] at hpair
        rw [← hpair.2]
        have hlen : cs'.length = hs.length := abMaxLoop_longitud hs a b ⊥ vfin cs' hloop
        have hne : cs'.isEmpty = false := by
          rw [List.isEmpty_eq_false_iff_exists_mem]
          rw [List.isEmpty_eq_false_iff_exists_mem] at h0
          rcases h0 with ⟨x, hx⟩
          have : 0 < cs'.length := by
            rw [hlen]
            exact List.length_pos_of_mem hx
          rcases List.exists_mem_of_length_pos this with ⟨y, hy⟩
          exact ⟨y, hy⟩
        simp only [valoresHojas, hne, h0, Bool.false_eq_true, if_false]
        exact abMaxLoop_vhl hs (fun c hc => ih c hc) a b ⊥ vfin cs' hloop
      | false =>
        rw [hm] at heq
        simp only [Bool.false_eq_true, if_false] at heq
        rcases Option.map_eq_some'.mp heq with ⟨⟨vfin, cs'⟩, hloop, hpair⟩
        simp only [Prod.mk.injEq] at hpair
        rw [← hpair.2]
        have hlen : cs'.length = hs.length := abMinLoop_longitud hs a b ⊤ vfin cs' hloop
        have hne : cs'.isEmpty = false := by
          rw [List.isEmpty_eq_false_iff_exists_mem]
          rw [List.isEmpty_eq_false_iff_exists_mem] at h0
          rcases h0 with ⟨x, hx⟩
          have : 0 < cs'.length := by
            rw [hlen]
            exact List.length_pos_of_mem hx
          rcases List.exists_mem_of_length_pos this with ⟨y, hy⟩
          exact ⟨y, hy⟩
        simp only [valoresHojas, hne, h0, Bool.false_eq_true, if_false]
        exact abMinLoop_vhl hs (fun c hc => ih c hc) a b ⊤ vfin cs' hloop

/-- alfa_beta_reverso preserves the leaf values of the tree. -/
theorem vhl_alfa_beta_reverso : ∀ t, ∀ a b r t',
    alfa_beta_reverso t a b = some (r, t') →
    valoresHojas t' = valoresHojas t := by
  intro t
  induction t using nodoInd with
  | h i v hs m p ih =>
    intro a b r t' heq
    rw [alfa_beta_reverso] at heq
    cases h0 : hs.isEmpty with
    | true =>
      simp only [h0, if_true] at heq
      rcases Option.map_eq_some'.mp heq with ⟨x, hx, hpair⟩
      simp only [Prod.mk.injEq] at hpair
      rw [← hpair.2]
    | false =>
      simp only [h0, Bool.false_eq_true, if_false] at heq
      have ihrev : ∀ c ∈ hs.reverse, ∀ a b r c',
          alfa_beta_reverso c a b = some (r, c') →
          valoresHojas c' = valoresHojas c := by
        intro c hc
        rw [List.mem_reverse] at hc
        exact ih c hc
      cases hm : m with
      | true =>
        rw [hm] at heq
        simp only [if_true] at heq
        rcases Option.map_eq_some'.mp heq with ⟨⟨vfin, cs'⟩, hloop, hpair⟩
        simp only [Prod.mk.injEq] at hpair
        rw [← hpair.2]
        have hlen : cs'.length = hs.length := abrMaxLoop_longitud hs.reverse hs a b ⊥ vfin cs' hloop
        have hne : cs'.isEmpty = false := by
          rw [List.isEmpty_eq_false_iff_exists_mem]
          rw [List.isEmpty_eq_false_iff_exists_mem] at h0
          rcases h0 with ⟨x, hx⟩
          have : 0 < cs'.length := by
            rw [hlen]
            exact List.length_pos_of_mem hx
          rcases List.exists_mem_of_length_pos this with ⟨y, hy⟩
          exact ⟨y, hy⟩
        simp only [valoresHojas, hne, h0, Bool.false_eq_true, if_false]
        have hloop2 : abrMaxLoop hs.reverse (hs.reverse.reverse ++ []) a b ⊥ =
            some (vfin, cs') := by simpa using hloop
        have := abrMaxLoop_vhl hs.reverse ihrev [] a b ⊥ vfin cs' hloop2
        simpa using this
      | false =>
        rw [hm] at heq
        simp only [Bool.false_eq_true, if_false] at heq
        rcases Option.map_eq_some'.mp heq with ⟨⟨vfin, cs'⟩, hloop, hpair⟩
        simp only [Prod.mk.injEq] at hpair
        rw [← hpair.2]
        have hlen : cs'.length = hs.length := abrMinLoop_longitud hs.reverse hs a b ⊤ vfin cs' hloop
        have hne : cs'.isEmpty = false := by
          rw [List.isEmpty_eq_false_iff_exists_mem]
          rw [List.isEmpty_eq_false_iff_exists_mem] at h0
          rcases h0 with ⟨x, hx⟩
          have : 0 < cs'.length := by
            rw [hlen]
            exact List.length_pos_of_mem hx
          rcases List.exists_mem_of_length_pos this with ⟨y, hy⟩
          exact ⟨y, hy⟩
        simp only [valoresHojas, hne, h0, Bool.false_eq_true, if_false]
        have hloop2 : abrMinLoop hs.reverse (hs.reverse.reverse ++ []) a b ⊤ =
            some (vfin, cs') := by simpa using hloop
        have := abrMinLoop_vhl hs.reverse ihrev [] a b ⊤ vfin cs' hloop2
        simpa using this

/-- Claim C6: evaluation in either order never alters the value field of any
leaf.  Called on a leaf it returns the stored value with the leaf unchanged
and unmarked, and on any tree a successful run preserves the list of leaf
values, so only internal value fields are ever written. -/
theorem c6_hojas_invariantes :
    (∀ n : Nodo, ∀ a b : EV, n.es_hoja = true →
      alfa_beta n a b = n.valor.map (fun x => (x, n)) ∧
      alfa_beta_reverso n a b = n.valor.map (fun x => (x, n))) ∧
    (∀ t : Nodo, ∀ a b r : EV, ∀ t' : Nodo, alfa_beta t a b = some (r, t') →
      valoresHojas t' = valoresHojas t) ∧
    (∀ t : Nodo, ∀ a b r : EV, ∀ t' : Nodo,
      alfa_beta_reverso t a b = some (r, t') →
      valoresHojas t' = valoresHojas t) := by
  refine ⟨?_, vhl_alfa_beta, vhl_alfa_beta_reverso⟩
  intro n a b hhoja
  cases n with
  | mk i v hs m p =>
    simp only [Nodo.es_hoja, Nodo.hijos] at hhoja
    constructor
    · simp [alfa_beta, hhoja, Nodo.valor]
    · rw [alfa_beta_reverso]
      simp [hhoja, Nodo.valor]

/-- Witness of claim C6: the leaf clause at a concrete leaf and the
preservation clause at the concrete forward run on the scenario tree. -/
theorem c6_testigo :
    alfa_beta (Nodo.mk 9 (some (ev 7)) [] true false) ⊥ ⊤ =
      (Nodo.mk 9 (some (ev 7)) [] true false).valor.map
        (fun x => (x, Nodo.mk 9 (some (ev 7)) [] true false)) ∧
    valoresHojas
      (Nodo.mk 0 (some (ev 3))
        [ Nodo.mk 1 (some (ev 3)) [Nodo.mk 2 (some (ev 3)) [] true false,
                                   Nodo.mk 3 (some (ev 5)) [] true false] false false,
          Nodo.mk 4 (some (ev 2)) [Nodo.mk 5 (some (ev 2)) [] true false,
                                   Nodo.mk 6 (some (ev 9)) [] true true] false false ]
        true false) = valoresHojas arbolEscenario :=
  ⟨(c6_hojas_invariantes.1 (Nodo.mk 9 (some (ev 7)) [] true false) ⊥ ⊤ rfl).1,
   c6_hojas_invariantes.2.1 arbolEscenario ⊥ ⊤ (ev 3) _ rfl⟩

/-- The MAX loop of alfa_beta turns a child list without pruned nodes into a
list of downward closed trees. -/
theorem abMaxLoop_cerrado :
    ∀ (cs : List Nodo),
      (∀ c ∈ cs, ∀ a b r c', sinPodados c = true →
        alfa_beta c a b = some (r, c') → podadoCerrado c' = true) →
      ∀ a b v vfin cs', (∀ c ∈ cs, sinPodados c = true) →
        abMaxLoop cs a b v = some (vfin, cs') →
        ∀ x ∈ cs', podadoCerrado x = true := by
  intro cs
  induction cs with
  | nil =>
    intro _ a b v vfin cs' _ heq
    simp only [abMaxLoop, Option.some_inj, Prod.mk.injEq] at heq
    rw [← heq.2]
    intro x hx
    cases hx
  | cons c rest ih =>
    intro hIH a b v vfin cs' hsin heq
    simp only [abMaxLoop] at heq
    split at heq
    · exact absurd heq (by simp)
    · next rc c' hev =>
      split at heq
      · simp only [Option.some_inj, Prod.mk.injEq] at heq
        rw [← heq.2]
        intro x hx
        rcases List.mem_cons.mp hx with rfl | hmem
        · exact hIH c (by simp) _ _ _ _ (hsin c (by simp)) hev
        · rcases mem_marcaList hmem with ⟨y, _, rfl⟩
          exact cerrado_de_todoPodado _ (todoPodado_marca y)
      · split at heq
        · exact absurd heq (by simp)
        · next vfin2 rest2 hrec =>
          simp only [Option.some_inj, Prod.mk.injEq] at heq
          rw [← heq.2]
          intro x hx
          rcases List.mem_cons.mp hx with rfl | hmem
          · exact hIH c (by simp) _ _ _ _ (hsin c (by simp)) hev
          · exact ih (fun c hc => hIH c (by simp [hc])) _ _ _ _ _
              (fun c hc => hsin c (by simp [hc])) hrec x hmem

/-- The MIN loop of alfa_beta turns a child list without pruned nodes into a
list of downward closed trees. -/
theorem abMinLoop_cerrado :
    ∀ (cs : List Nodo),
      (∀ c ∈ cs, ∀ a b r c', sinPodados c = true →
        alfa_beta c a b = some (r, c') → podadoCerrado c' = true) →
      ∀ a b v vfin cs', (∀ c ∈ cs, sinPodados c = true) →
        abMinLoop cs a b v = some (vfin, cs') →
        ∀ x ∈ cs', podadoCerrado x = true := by
  intro cs
  induction cs with
  | nil =>
    intro _ a b v vfin cs' _ heq
    simp only [abMinLoop, Option.some_inj, Prod.mk.injEq] at heq
    rw [← heq.2]
    intro x hx
    cases hx
  | cons c rest ih =>
    intro hIH a b v vfin cs' hsin heq
    simp only [abMinLoop] at heq
    split at heq
    · exact absurd heq (by simp)
    · next rc c' hev =>
      split at heq
      · simp only [Option.some_inj, Prod.mk.injEq] at heq
        rw [← heq.2]
        intro x hx
        rcases List.mem_cons.mp hx with rfl | hmem
        · exact hIH c (by simp) _ _ _ _ (hsin c (by simp)) hev
        · rcases mem_marcaList hmem with ⟨y, _, rfl⟩
          exact cerrado_de_todoPodado _ (todoPodado_marca y)
      · split at heq
        · exact absurd heq (by simp)
        · next vfin2 rest2 hrec =>
          simp only [Option.some_inj, Prod.mk.injEq] at heq
          rw [← heq.2]
          intro x hx
          rcases List.mem_cons.mp hx with rfl | hmem
          · exact hIH c (by simp) _ _ _ _ (hsin c (by simp)) hev
          · exact ih (fun c hc => hIH c (by simp [hc])) _ _ _ _ _
              (fun c hc => hsin c (by simp [hc])) hrec x hmem

/-- The MAX loop of alfa_beta_reverso keeps every tree of the current child
list downward closed, assuming the pending children carry no pruned node and
the already processed suffix is closed. -/
theorem abrMaxLoop_cerrado :
    ∀ (cs : List Nodo),
      (∀ c ∈ cs, ∀ a b r c', sinPodados c = true →
        alfa_beta_reverso c a b = some (r, c') → podadoCerrado c' = true) →
      ∀ done a b v vfin L, (∀ c ∈ cs, sinPodados c = true) →
        (∀ x ∈ done, podadoCerrado x = true) →
        abrMaxLoop cs (cs.reverse ++ done) a b v = some (vfin, L) →
        ∀ x ∈ L, podadoCerrado x = true := by
  intro cs
  induction cs with
  | nil =>
    intro _ done a b v vfin L _ hdone heq
    simp only [abrMaxLoop, Option.some_inj, Prod.mk.injEq] at heq
    rw [← heq.2]
    intro x hx
    exact hdone x (by simpa using hx)
  | cons c rest ih =>
    intro hIH done a b v vfin L hsin hdone heq
    simp only [abrMaxLoop] at heq
    split at heq
    · exact absurd heq (by simp)
    · next rc c' hev =>
      rw [setRevMid] at heq
      have hcer : podadoCerrado c' = true :=
        hIH c (by simp) _ _ _ _ (hsin c (by simp)) hev
      split at heq
      · simp only [Option.some_inj, Prod.mk.injEq] at heq
        rw [← heq.2, takeRevMid, dropRevMid]
        intro x hx
        rcases List.mem_append.mp hx with hx1 | hx2
        · rcases List.mem_append.mp hx1 with hx3 | hx4
          · rw [List.mem_reverse] at hx3
            exact cerrado_de_sinPodados x (hsin x (by simp [hx3]))
          · rcases List.mem_singleton.mp hx4 with rfl
            exact hcer
        · rcases mem_marcaList hx2 with ⟨y, _, rfl⟩
          exact cerrado_de_todoPodado _ (todoPodado_marca y)
      · exact ih (fun c hc => hIH c (by simp [hc])) (c' :: done) _ _ _ _ _
          (fun c hc => hsin c (by simp [hc]))
          (by
            intro x hx
            rcases List.mem_cons.mp hx with rfl | hmem
            · exact hcer
            · exact hdone x hmem) heq

/-- The MIN loop of alfa_beta_reverso keeps every tree of the current child
list downward closed, assuming the pending children carry no pruned node and
the already processed suffix is closed. -/
theorem abrMinLoop_cerrado :
    ∀ (cs : List Nodo),
      (∀ c ∈ cs, ∀ a b r c', sinPodados c = true →
        alfa_beta_reverso c a b = some (r, c') → podadoCerrado c' = true) →
      ∀ done a b v vfin L, (∀ c ∈ cs, sinPodados c = true) →
        (∀ x ∈ done, podadoCerrado x = true) →
        abrMinLoop cs (cs.reverse ++ done) a b v = some (vfin, L) →
        ∀ x ∈ L, podadoCerrado x = true := by
  intro cs
  induction cs with
  | nil =>
    intro _ done a b v vfin L _ hdone heq
    simp only [abrMinLoop, Option.some_inj, Prod.mk.injEq] at heq
    rw [← heq.2]
    intro x hx
    exact hdone x (by simpa using hx)
  | cons c rest ih =>
    intro hIH done a b v vfin L hsin hdone heq
    simp only [abrMinLoop] at heq
    split at heq
    · exact absurd heq (by simp)
    · next rc c' hev =>
      rw [setRevMid] at heq
      have hcer : podadoCerrado c' = true :=
        hIH c (by simp) _ _ _ _ (hsin c (by simp)) hev
      split at heq
      · simp only [Option.some_inj, Prod.mk.injEq] at heq
        rw [← heq.2, takeRevMid, dropRevMid]
        intro x hx
        rcases List.mem_append.mp hx with hx1 | hx2
        · rcases List.mem_append.mp hx1 with hx3 | hx4
          · rw [List.mem_reverse] at hx3
            exact cerrado_de_sinPodados x (hsin x (by simp [hx3]))
          · rcases List.mem_singleton.mp hx4 with rfl
            exact hcer
        · rcases mem_marcaList hx2 with ⟨y, _, rfl⟩
          exact cerrado_de_todoPodado _ (todoPodado_marca y)
      · exact ih (fun c hc => hIH c (by simp [hc])) (c' :: done) _ _ _ _ _
          (fun c hc => hsin c (by simp [hc]))
          (by
            intro x hx
            rcases List.mem_cons.mp hx with rfl | hmem
            · exact hcer
            · exact hdone x hmem) heq

/-- A forward evaluation of a tree without pruned nodes leaves the pruning
downward closed. -/
theorem cerrado_alfa_beta : ∀ t, ∀ a b r t', sinPodados t = true →
    alfa_beta t a b = some (r, t') → podadoCerrado t' = true := by
  intro t
  induction t using nodoInd with
  | h i v hs m p ih =>
    intro a b r t' hsin heq
    simp only [sinPodados, Bool.and_eq_true, Bool.not_eq_true'] at hsin
    cases h0 : hs.isEmpty with
    | true =>
      simp only [alfa_beta, h0, if_true] at heq
      rcases Option.map_eq_some'.mp heq with ⟨x, hx, hpair⟩
      simp only [Prod.mk.injEq] at hpair
      rw [← hpair.2]
      apply cerrado_de_sinPodados
      simp [sinPodados, hsin.1, hsin.2]
    | false =>
      simp only [alfa_beta, h0, Bool.false_eq_true, if_false] at heq
      have hsl : ∀ c ∈ hs, sinPodados c = true := sinPodadosList_iff.mp hsin.2
      cases hm : m with
      | true =>
        rw [hm] at heq
        simp only [if_true] at heq
        rcases Option.map_eq_some'.mp heq with ⟨⟨vfin, cs'⟩, hloop, hpair⟩
        simp only [Prod.mk.injEq] at hpair
        rw [← hpair.2]
        simp only [podadoCerrado, hsin.1, Bool.not_false, Bool.true_or,
          Bool.true_and]
        rw [podadoCerradoList_iff]
        exact abMaxLoop_cerrado hs (fun c hc => ih c hc) a b ⊥ vfin cs' hsl hloop
      | false =>
        rw [hm] at heq
        simp only [Bool.false_eq_true, if_false] at heq
        rcases Option.map_eq_some'.mp heq with ⟨⟨vfin, cs'⟩, hloop, hpair⟩
        simp only [Prod.mk.injEq] at hpair
        rw [← hpair.2]
        simp only [podadoCerrado, hsin.1, Bool.not_false, Bool.true_or,
          Bool.true_and]
        rw [podadoCerradoList_iff]
        exact abMinLoop_cerrado hs (fun c hc => ih c hc) a b ⊤ vfin cs' hsl hloop

/-- A reverse evaluation of a tree without pruned nodes leaves the pruning
downward closed. -/
theorem cerrado_alfa_beta_reverso : ∀ t, ∀ a b r t', sinPodados t = true →
    alfa_beta_reverso t a b = some (r, t') → podadoCerrado t' = true := by
  intro t
  induction t using nodoInd with
  | h i v hs m p ih =>
    intro a b r t' hsin heq
    simp only [sinPodados, Bool.and_eq_true, Bool.not_eq_true'] at hsin
    rw [alfa_beta_reverso] at heq
    cases h0 : hs.isEmpty with
    | true =>
      simp only [h0, if_true] at heq
      rcases Option.map_eq_some'.mp heq with ⟨x, hx, hpair⟩
      simp only [Prod.mk.injEq] at hpair
      rw [← hpair.2]
      apply cerrado_de_sinPodados
      simp [sinPodados, hsin.1, hsin.2]
    | false =>
      simp only [h0, Bool.false_eq_true, if_false] at heq
      have hsl : ∀ c ∈ hs.reverse, sinPodados c = true := by
        intro c hc
        rw [List.mem_reverse] at hc
        exact sinPodadosList_iff.mp hsin.2 c hc
      have ihrev : ∀ c ∈ hs.reverse, ∀ a b r c', sinPodados c = true →
          alfa_beta_reverso c a b = some (r, c') → podadoCerrado c' = true := by
        intro c hc
        rw [List.mem_reverse] at hc
        exact ih c hc
      cases hm : m with
      | true =>
        rw [hm] at heq
        simp only [if_true] at heq
        rcases Option.map_eq_some'.mp heq with ⟨⟨vfin, cs'⟩, hloop, hpair⟩
        simp only [Prod.mk.injEq] at hpair
        rw [← hpair.2]
        simp only [podadoCerrado, hsin.1, Bool.not_false, Bool.true_or,
          Bool.true_and]
        rw [podadoCerradoList_iff]
        have hloop2 : abrMaxLoop hs.reverse (hs.reverse.reverse ++ []) a b ⊥ =
            some (vfin, cs') := by simpa using hloop
        exact abrMaxLoop_cerrado hs.reverse ihrev [] a b ⊥ vfin cs' hsl
          (by intro x hx; cases hx) hloop2
      | false =>
        rw [hm] at heq
        simp only [Bool.false_eq_true, if_false] at heq
        rcases Option.map_eq_some'.mp heq with ⟨⟨vfin, cs'⟩, hloop, hpair⟩
        simp only [Prod.mk.injEq] at hpair
        rw [← hpair.2]
        simp only [podadoCerrado, hsin.1, Bool.not_false, Bool.true_or,
          Bool.true_and]
        rw [podadoCerradoList_iff]
        have hloop2 : abrMinLoop hs.reverse (hs.reverse.reverse ++ []) a b ⊤ =
            some (vfin, cs') := by simpa using hloop
        exact abrMinLoop_cerrado hs.reverse ihrev [] a b ⊤ vfin cs' hsl
          (by intro x hx; cases hx) hloop2

/-- Claim C5: marca_podado prunes a node together with its entire subtree,
and consequently, after an evaluation run in either order on a tree that
starts with no pruned node, pruning is downward closed: every pruned node has
all of its descendants pruned and no pruned node has a non-pruned
descendant. -/
theorem c5_poda_propagada :
    (∀ t, todoPodado (marca_podado t) = true) ∧
    (∀ t : Nodo, ∀ a b r : EV, ∀ t' : Nodo, sinPodados t = true →
      alfa_beta t a b = some (r, t') → podadoCerrado t' = true) ∧
    (∀ t : Nodo, ∀ a b r : EV, ∀ t' : Nodo, sinPodados t = true →
      alfa_beta_reverso t a b = some (r, t') → podadoCerrado t' = true) :=
  ⟨todoPodado_marca, cerrado_alfa_beta, cerrado_alfa_beta_reverso⟩

/-- Witness of claim C5 at concrete trees: the whole marked scenario tree is
pruned, and the results of the two concrete evaluation runs are downward
closed. -/
theorem c5_testigo :
    todoPodado (marca_podado arbolEscenario) = true ∧
    podadoCerrado
      (Nodo.mk 0 (some (ev 3))
        [ Nodo.mk 1 (some (ev 3)) [Nodo.mk 2 (some (ev 3)) [] true false,
                                   Nodo.mk 3 (some (ev 5)) [] true false] false false,
          Nodo.mk 4 (some (ev 2)) [Nodo.mk 5 (some (ev 2)) [] true false,
                                   Nodo.mk 6 (some (ev 9)) [] true true] false false ]
        true false) = true ∧
    podadoCerrado
      (Nodo.mk 0 (some (ev 3))
        [ Nodo.mk 1 (some (ev 3)) [Nodo.mk 2 (some (ev 3)) [] true false,
                                   Nodo.mk 3 (some (ev 5)) [] true false] false false,
          Nodo.mk 4 (some (ev 2)) [Nodo.mk 5 (some (ev 2)) [] true false,
                                   Nodo.mk 6 (some (ev 9)) [] true false] false false ]
        true false) = true := by
  refine ⟨c5_poda_propagada.1 arbolEscenario, ?_, ?_⟩
  · exact c5_poda_propagada.2.1 arbolEscenario ⊥ ⊤ (ev 3) _ rfl rfl
  · refine c5_poda_propagada.2.2 arbolEscenario ⊥ ⊤ (ev 3) _ rfl ?_
    simp [alfa_beta_reverso, abrMaxLoop, abrMinLoop, arbolEscenario,
      marca_podado, marcaList, ev_le_ev, ev_lt_ev, max_ev_ev, min_ev_ev,
      ev_eq_top, top_le_ev, ev_le_bot, ev_eq_bot,
      maxBotIzq, maxBotDer, minTopIzq, minTopDer]

/-- In a tree without pruned nodes, every pruned internal node trivially has
no value. -/
theorem sinValor_de_sinPodados : ∀ t, sinPodados t = true →
    podadoSinValor t = true := by
  intro t
  induction t using nodoInd with
  | h i v hs m p ih =>
    simp only [sinPodados, podadoSinValor, Bool.and_eq_true, Bool.not_eq_true']
    rintro ⟨hp, hlist⟩
    constructor
    · simp [hp]
    · rw [podadoSinValorList_iff]
      intro c hc
      exact ih c hc (sinPodadosList_iff.mp hlist c hc)

/-- The MAX loop of alfa_beta, on children that are fresh, produces children
whose pruned internal nodes have no value. -/
theorem abMaxLoop_sinValor :
    ∀ (cs : List Nodo),
      (∀ c ∈ cs, ∀ a b r c', sinPodados c = true → internosSinValor c = true →
        alfa_beta c a b = some (r, c') → podadoSinValor c' = true) →
      ∀ a b v vfin cs', (∀ c ∈ cs, sinPodados c = true) →
        (∀ c ∈ cs, internosSinValor c = true) →
        abMaxLoop cs a b v = some (vfin, cs') →
        ∀ x ∈ cs', podadoSinValor x = true := by
  intro cs
  induction cs with
  | nil =>
    intro _ a b v vfin cs' _ _ heq
    simp only [abMaxLoop, Option.some_inj, Prod.mk.injEq] at heq
    rw [← heq.2]
    intro x hx
    cases hx
  | cons c rest ih =>
    intro hIH a b v vfin cs' hsin hint heq
    simp only [abMaxLoop] at heq
    split at heq
    · exact absurd heq (by simp)
    · next rc c' hev =>
      split at heq
      · simp only [Option.some_inj, Prod.mk.injEq] at heq
        rw [← heq.2]
        intro x hx
        rcases List.mem_cons.mp hx with rfl | hmem
        · exact hIH c (by simp) _ _ _ _ (hsin c (by simp)) (hint c (by simp)) hev
        · rcases mem_marcaList hmem with ⟨y, hy, rfl⟩
          exact podadoSinValor_marca y (hint y (by simp [hy]))
      · split at heq
        · exact absurd heq (by simp)
        · next vfin2 rest2 hrec =>
          simp only [Option.some_inj, Prod.mk.injEq] at heq
          rw [← heq.2]
          intro x hx
          rcases List.mem_cons.mp hx with rfl | hmem
          · exact hIH c (by simp) _ _ _ _ (hsin c (by simp)) (hint c (by simp)) hev
          · exact ih (fun c hc => hIH c (by simp [hc])) _ _ _ _ _
              (fun c hc => hsin c (by simp [hc]))
              (fun c hc => hint c (by simp [hc])) hrec x hmem

/-- The MIN loop of alfa_beta, on children that are fresh, produces children
whose pruned internal nodes have no value. -/
theorem abMinLoop_sinValor :
    ∀ (cs : List Nodo),
      (∀ c ∈ cs, ∀ a b r c', sinPodados c = true → internosSinValor c = true →
        alfa_beta c a b = some (r, c') → podadoSinValor c' = true) →
      ∀ a b v vfin cs', (∀ c ∈ cs, sinPodados c = true) →
        (∀ c ∈ cs, internosSinValor c = true) →
        abMinLoop cs a b v = some (vfin, cs') →
        ∀ x ∈ cs', podadoSinValor x = true := by
  intro cs
  induction cs with
  | nil =>
    intro _ a b v vfin cs' _ _ heq
    simp only [abMinLoop, Option.some_inj, Prod.mk.injEq] at heq
    rw [← heq.2]
    intro x hx
    cases hx
  | cons c rest ih =>
    intro hIH a b v vfin cs' hsin hint heq
    simp only [abMinLoop] at heq
    split at heq
    · exact absurd heq (by simp)
    · next rc c' hev =>
      split at heq
      · simp only [Option.some_inj, Prod.mk.injEq] at heq
        rw [← heq.2]
        intro x hx
        rcases List.mem_cons.mp hx with rfl | hmem
        · exact hIH c (by simp) _ _ _ _ (hsin c (by simp)) (hint c (by simp)) hev
        · rcases mem_marcaList hmem with ⟨y, hy, rfl⟩
          exact podadoSinValor_marca y (hint y (by simp [hy]))
      · split at heq
        · exact absurd heq (by simp)
        · next vfin2 rest2 hrec =>
          simp only [Option.some_inj, Prod.mk.injEq] at heq
          rw [← heq.2]
          intro x hx
          rcases List.mem_cons.mp hx with rfl | hmem
          · exact hIH c (by simp) _ _ _ _ (hsin c (by simp)) (hint c (by simp)) hev
          · exact ih (fun c hc => hIH c (by simp [hc])) _ _ _ _ _
              (fun c hc => hsin c (by simp [hc]))
              (fun c hc => hint c (by simp [hc])) hrec x hmem

/-- After a forward evaluation of a fresh tree, every internal node that ends
pruned still has an absent value. -/
theorem sinValor_alfa_beta : ∀ t, ∀ a b r t', sinPodados t = true →
    internosSinValor t = true → alfa_beta t a b = some (r, t') →
    podadoSinValor t' = true := by
  intro t
  induction t using nodoInd with
  | h i v hs m p ih =>
    intro a b r t' hsin hint heq
    simp only [sinPodados, Bool.and_eq_true, Bool.not_eq_true'] at hsin
    simp only [internosSinValor, Bool.and_eq_true] at hint
    cases h0 : hs.isEmpty with
    | true =>
      simp only [alfa_beta, h0, if_true] at heq
      rcases Option.map_eq_some'.mp heq with ⟨x, hx, hpair⟩
      simp only [Prod.mk.injEq] at hpair
      rw [← hpair.2]
      apply sinValor_de_sinPodados
      simp [sinPodados, hsin.1, hsin.2]
    | false =>
      simp only [alfa_beta, h0, Bool.false_eq_true, if_false] at heq
      have hsl : ∀ c ∈ hs, sinPodados c = true := sinPodadosList_iff.mp hsin.2
      have hil : ∀ c ∈ hs, internosSinValor c = true :=
        internosSinValorList_iff.mp hint.2
      cases hm : m with
      | true =>
        rw [hm] at heq
        simp only [if_true] at heq
        rcases Option.map_eq_some'.mp heq with ⟨⟨vfin, cs'⟩, hloop, hpair⟩
        simp only [Prod.mk.injEq] at hpair
        rw [← hpair.2]
        simp only [podadoSinValor, hsin.1, Bool.false_and, Bool.not_false,
          Bool.true_or, Bool.true_and]
        rw [podadoSinValorList_iff]
        exact abMaxLoop_sinValor hs (fun c hc => ih c hc) a b ⊥ vfin cs'
          hsl hil hloop
      | false =>
        rw [hm] at heq
        simp only [Bool.false_eq_true, if_false] at heq
        rcases Option.map_eq_some'.mp heq with ⟨⟨vfin, cs'⟩, hloop, hpair⟩
        simp only [Prod.mk.injEq] at hpair
        rw [← hpair.2]
        simp only [podadoSinValor, hsin.1, Bool.false_and, Bool.not_false,
          Bool.true_or, Bool.true_and]
        rw [podadoSinValorList_iff]
        exact abMinLoop_sinValor hs (fun c hc => ih c hc) a b ⊤ vfin cs'
          hsl hil hloop

/-- Claim C10: marca_podado changes only the podado flags, leaving every
identifier, value, MAX or MIN tag and child list structure intact, and since
the forward evaluation never descends into a subtree it marks pruned, after
evaluating a fresh tree every internal node that ends with podado = true
still has an absent value. -/
theorem c10_marca_solo_bandera :
    (∀ t, borraPodado (marca_podado t) = borraPodado t ∧
      todoPodado (marca_podado t) = true) ∧
    (∀ t : Nodo, ∀ a b r : EV, ∀ t' : Nodo, sinPodados t = true →
      internosSinValor t = true → alfa_beta t a b = some (r, t') →
      podadoSinValor t' = true) :=
  ⟨fun t => ⟨borra_marca t, todoPodado_marca t⟩, sinValor_alfa_beta⟩

/-- Witness of claim C10 at the scenario tree and its concrete forward
run. -/
theorem c10_testigo :
    borraPodado (marca_podado arbolEscenario) = borraPodado arbolEscenario ∧
    podadoSinValor
      (Nodo.mk 0 (some (ev 3))
        [ Nodo.mk 1 (some (ev 3)) [Nodo.mk 2 (some (ev 3)) [] true false,
                                   Nodo.mk 3 (some (ev 5)) [] true false] false false,
          Nodo.mk 4 (some (ev 2)) [Nodo.mk 5 (some (ev 2)) [] true false,
                                   Nodo.mk 6 (some (ev 9)) [] true true] false false ]
        true false) = true :=
  ⟨(c10_marca_solo_bandera.1 arbolEscenario).1,
   c10_marca_solo_bandera.2 arbolEscenario ⊥ ⊤ (ev 3) _ rfl rfl rfl⟩

/-- formaCompletaList is the pointwise conjunction of formaCompleta. -/
theorem formaCompletaList_iff {factor : Nat} {l : List Nodo} {d : Nat} :
    formaCompletaList factor l d = true ↔
      ∀ c ∈ l, formaCompleta factor c d = true := by
  induction l with
  | nil => simp [formaCompletaList]
  | cons c rest ih => simp [formaCompletaList, Bool.and_eq_true, ih]

/-- alternaList is the pointwise conjunction of alterna. -/
theorem alternaList_iff {l : List Nodo} {b : Bool} :
    alternaList l b = true ↔ ∀ c ∈ l, alterna c b = true := by
  induction l with
  | nil => simp [alternaList]
  | cons c rest ih => simp [alternaList, Bool.and_eq_true, ih]

/-- The child builder of the generator: assuming each generated subtree
satisfies the generator contract, a generated child list is made of complete,
alternating subtrees whose preorder identifiers are the consecutive range
from the starting counter. -/
theorem genList_spec (g : Nat → Bool → Nodo × Nat) (factor d : Nat)
    (hg : ∀ id0 m, formaCompleta factor (g id0 m).1 d = true ∧
      alterna (g id0 m).1 m = true ∧
      preordenIds (g id0 m).1 = List.range' id0 ((g id0 m).2 - id0) ∧
      id0 < (g id0 m).2) :
    ∀ k id0 m,
      formaCompletaList factor (genList g k id0 m).1 d = true ∧
      alternaList (genList g k id0 m).1 m = true ∧
      preordenIdsList (genList g k id0 m).1 =
        List.range' id0 ((genList g k id0 m).2 - id0) ∧
      id0 ≤ (genList g k id0 m).2 ∧
      (genList g k id0 m).1.length = k := by
  intro k
  induction k with
  | zero =>
    intro id0 m
    simp [genList, formaCompletaList, alternaList, preordenIdsList]
  | succ k ih =>
    intro id0 m
    rcases hg id0 m with ⟨hf, ha, hp, hlt⟩
    rcases ih (g id0 m).2 m with ⟨hf2, ha2, hp2, hle2, hlen2⟩
    have hunf : genList g (k+1) id0 m =
        ((g id0 m).1 :: (genList g k (g id0 m).2 m).1,
         (genList g k (g id0 m).2 m).2) := by
      rw [genList]
    rw [hunf]
    refine ⟨?_, ?_, ?_, ?_, ?_⟩
    · simp only [formaCompletaList, Bool.and_eq_true]
      exact ⟨hf, hf2⟩
    · simp only [alternaList, Bool.and_eq_true]
      exact ⟨ha, ha2⟩
    · simp only [preordenIdsList]
      rw [hp, hp2]
      have hr := List.range'_append id0 ((g id0 m).2 - id0)
        ((genList g k (g id0 m).2 m).2 - (g id0 m).2) 1
      simp only [one_mul] at hr
      rw [show id0 + ((g id0 m).2 - id0) = (g id0 m).2 from by omega] at hr
      rw [hr]
      congr 1
      omega
    · omega
    · simp [hlen2]

/-- The generator contract of crear_arbol for a single generated subtree:
complete shape to the remaining depth, strict alternation of the MAX and MIN
tags from the given root tag, and preorder identifiers forming the
consecutive range starting at the identifier counter. -/
theorem gen_spec (vals : Nat → Int) (factor : Nat) :
    ∀ fuel id0 m,
      formaCompleta factor (gen vals factor fuel id0 m).1 fuel = true ∧
      alterna (gen vals factor fuel id0 m).1 m = true ∧
      preordenIds (gen vals factor fuel id0 m).1 =
        List.range' id0 ((gen vals factor fuel id0 m).2 - id0) ∧
      id0 < (gen vals factor fuel id0 m).2 := by
  intro fuel
  induction fuel with
  | zero =>
    intro id0 m
    refine ⟨rfl, ?_, ?_, by simp [gen]⟩
    · simp [gen, alterna, alternaList]
    · simp [gen, preordenIds, preordenIdsList, List.range']
  | succ fuel ih =>
    intro id0 m
    rcases genList_spec (gen vals factor fuel) factor fuel ih factor (id0+1) (!m)
      with ⟨hf, ha, hp, hle, hlen⟩
    have hunf : gen vals factor (fuel+1) id0 m =
        (.mk id0 none (genList (gen vals factor fuel) factor (id0+1) (!m)).1 m false,
         (genList (gen vals factor fuel) factor (id0+1) (!m)).2) := by
      rw [gen]
    rw [hunf]
    refine ⟨?_, ?_, ?_, by omega⟩
    · simp only [formaCompleta, Bool.and_eq_true, beq_iff_eq]
      exact ⟨hlen, hf⟩
    · simp only [alterna, Bool.and_eq_true, beq_self_eq_true, true_and]
      exact ha
    · simp only [preordenIds]
      rw [hp]
      have h1 : (genList (gen vals factor fuel) factor (id0+1) (!m)).2 - id0 =
          ((genList (gen vals factor fuel) factor (id0+1) (!m)).2 - (id0+1)) + 1 := by
        omega
      rw [h1, List.range'_succ]

/-- Claim C9: for every branching factor at least 1 and every depth, the
generator returns a root such that every path from the root to a leaf has
exactly depth edges, every internal node has exactly factor children, every
child carries the opposite MAX or MIN tag of its parent starting from the
requested root tag, the node identifiers are exactly a consecutive range from
0 in preorder, hence unique and strictly increasing, and depth 0 yields a
root that is itself a leaf carrying a value. -/
theorem c9_crear_arbol :
    ∀ (factor profundidad : Nat) (vals : Nat → Int) (raiz_es_max : Bool),
      1 ≤ factor →
      formaCompleta factor (crear_arbol factor profundidad vals raiz_es_max)
        profundidad = true ∧
      alterna (crear_arbol factor profundidad vals raiz_es_max)
        raiz_es_max = true ∧
      (∃ n, preordenIds (crear_arbol factor profundidad vals raiz_es_max) =
        List.range' 0 n ∧ 0 < n ∧
        (preordenIds (crear_arbol factor profundidad vals raiz_es_max)).Nodup) ∧
      (profundidad = 0 →
        (crear_arbol factor profundidad vals raiz_es_max).es_hoja = true ∧
        (crear_arbol factor profundidad vals raiz_es_max).valor.isSome = true) := by
  intro factor profundidad vals raiz_es_max _
  rcases gen_spec vals factor profundidad 0 raiz_es_max with ⟨hf, ha, hp, hlt⟩
  refine ⟨hf, ha, ?_, ?_⟩
  · refine ⟨(gen vals factor profundidad 0 raiz_es_max).2 - 0, ?_, by omega, ?_⟩
    · exact hp
    · rw [crear_arbol] at *
      rw [hp]
      exact List.nodup_range' _ _
  · intro h0
    subst h0
    rw [crear_arbol] at *
    have hcf := hf
    cases hgen : (gen vals factor 0 0 raiz_es_max).1 with
    | mk i v hs m p =>
      rw [hgen] at hcf
      simp only [formaCompleta, Bool.and_eq_true] at hcf
      simp [Nodo.es_hoja, Nodo.hijos, Nodo.valor, hgen, hcf.1, hcf.2]

/-- Witness of claim C9 at branching factor 2 and depth 1. -/
theorem c9_testigo :
    formaCompleta 2 (crear_arbol 2 1 (fun _ => 5) true) 1 = true ∧
    alterna (crear_arbol 2 1 (fun _ => 5) true) true = true ∧
    (∃ n, preordenIds (crear_arbol 2 1 (fun _ => 5) true) =
      List.range' 0 n ∧ 0 < n ∧
      (preordenIds (crear_arbol 2 1 (fun _ => 5) true)).Nodup) ∧
    (1 = 0 → (crear_arbol 2 1 (fun _ => 5) true).es_hoja = true ∧
      (crear_arbol 2 1 (fun _ => 5) true).valor.isSome = true) :=
  c9_crear_arbol 2 1 (fun _ => 5) true (by omega)

/-- Replaying the MAX loop of alfa_beta on its own output changes nothing:
same value, same final child list. -/
theorem abMaxLoop_replay :
    ∀ (cs : List Nodo),
      (∀ c ∈ cs, ∀ a b r c', alfa_beta c a b = some (r, c') →
        alfa_beta c' a b = some (r, c')) →
      ∀ a b v vfin cs', abMaxLoop cs a b v = some (vfin, cs') →
        abMaxLoop cs' a b v = some (vfin, cs') := by
  intro cs
  induction cs with
  | nil =>
    intro _ a b v vfin cs' heq
    simp only [abMaxLoop, Option.some_inj, Prod.mk.injEq] at heq
    rw [← heq.1, ← heq.2]
    rfl
  | cons c rest ih =>
    intro hIH a b v vfin cs' heq
    simp only [abMaxLoop] at heq
    split at heq
    · exact absurd heq (by simp)
    · next rc c' hev =>
      have hev2 := hIH c (by simp) a b rc c' hev
      split at heq
      · next hcond =>
        simp only [Option.some_inj, Prod.mk.injEq] at heq
        rw [← heq.1, ← heq.2]
        simp only [abMaxLoop, hev2]
        rw [if_pos hcond, marcaList_idem]
      · next hcond =>
        split at heq
        · exact absurd heq (by simp)
        · next vfin2 rest2 hrec =>
          simp only [Option.some_inj, Prod.mk.injEq] at heq
          rw [← heq.1, ← heq.2]
          simp only [abMaxLoop, hev2]
          rw [if_neg hcond,
            ih (fun c hc => hIH c (by simp [hc])) _ _ _ _ _ hrec]
  
/-- Replaying the MIN loop of alfa_beta on its own output changes nothing. -/
theorem abMinLoop_replay :
    ∀ (cs : List Nodo),
      (∀ c ∈ cs, ∀ a b r c', alfa_beta c a b = some (r, c') →
        alfa_beta c' a b = some (r, c')) →
      ∀ a b v vfin cs', abMinLoop cs a b v = some (vfin, cs') →
        abMinLoop cs' a b v = some (vfin, cs') := by
  intro cs
  induction cs with
  | nil =>
    intro _ a b v vfin cs' heq
    simp only [abMinLoop, Option.some_inj, Prod.mk.injEq] at heq
    rw [← heq.1, ← heq.2]
    rfl
  | cons c rest ih =>
    intro hIH a b v vfin cs' heq
    simp only [abMinLoop] at heq
    split at heq
    · exact absurd heq (by simp)
    · next rc c' hev =>
      have hev2 := hIH c (by simp) a b rc c' hev
      split at heq
      · next hcond =>
        simp only [Option.some_inj, Prod.mk.injEq] at heq
        rw [← heq.1, ← heq.2]
        simp only [abMinLoop, hev2]
        rw [if_pos hcond, marcaList_idem]
      · next hcond =>
        split at heq
        · exact absurd heq (by simp)
        · next vfin2 rest2 hrec =>
          simp only [Option.some_inj, Prod.mk.injEq] at heq
          rw [← heq.1, ← heq.2]
          simp only [abMinLoop, hev2]
          rw [if_neg hcond,
            ih (fun c hc => hIH c (by simp [hc])) _ _ _ _ _ hrec]

/-- Re-running alfa_beta on its own output with the same window returns the
same value and the identical tree. -/
theorem idem_alfa_beta : ∀ t, ∀ a b r t', alfa_beta t a b = some (r, t') →
    alfa_beta t' a b = some (r, t') := by
  intro t
  induction t using nodoInd with
  | h i v hs m p ih =>
    intro a b r t' heq
    cases h0 : hs.isEmpty with
    | true =>
      simp only [alfa_beta, h0, if_true] at heq
      rcases Option.map_eq_some'.mp heq with ⟨x, hx, hpair⟩
      simp only [Prod.mk.injEq] at hpair
      rw [← hpair.1, ← hpair.2]
      simp [alfa_beta, h0, hx]
    | false =>
      simp only [alfa_beta, h0, Bool.false_eq_true, if_false] at heq
      cases hm : m with
      | true =>
        rw [hm] at heq
        simp only [if_true] at heq
        rcases Option.map_eq_some'.mp heq with ⟨⟨vfin, cs'⟩, hloop, hpair⟩
        simp only [Prod.mk.injEq] at hpair
        rw [← hpair.1, ← hpair.2]
        have hlen : cs'.length = hs.length := abMaxLoop_longitud hs a b ⊥ vfin cs' hloop
        have hne : cs'.isEmpty = false := by
          rw [List.isEmpty_eq_false_iff_exists_mem]
          rw [List.isEmpty_eq_false_iff_exists_mem] at h0
          rcases h0 with ⟨x, hx⟩
          have hpos : 0 < cs'.length := by
            rw [hlen]
            exact List.length_pos_of_mem hx
          exact List.exists_mem_of_length_pos hpos
        simp only [alfa_beta, hne, Bool.false_eq_true, if_false, if_true]
        rw [abMaxLoop_replay hs (fun c hc => ih c hc) a b ⊥ vfin cs' hloop]
        rfl
      | false =>
        rw [hm] at heq
        simp only [Bool.false_eq_true, if_false] at heq
        rcases Option.map_eq_some'.mp heq with ⟨⟨vfin, cs'⟩, hloop, hpair⟩
        simp only [Prod.mk.injEq] at hpair
        rw [← hpair.1, ← hpair.2]
        have hlen : cs'.length = hs.length := abMinLoop_longitud hs a b ⊤ vfin cs' hloop
        have hne : cs'.isEmpty = false := by
          rw [List.isEmpty_eq_false_iff_exists_mem]
          rw [List.isEmpty_eq_false_iff_exists_mem] at h0
          rcases h0 with ⟨x, hx⟩
          have hpos : 0 < cs'.length := by
            rw [hlen]
            exact List.length_pos_of_mem hx
          exact List.exists_mem_of_length_pos hpos
        simp only [alfa_beta, hne, Bool.false_eq_true, if_false]
        rw [abMinLoop_replay hs (fun c hc => ih c hc) a b ⊤ vfin cs' hloop]
        rfl

/-- One step of the reverse MAX loop when the current list decomposes as the
reversed tail, the visited child and a suffix. -/
theorem abrMaxLoop_paso (x : Nodo) (T d2 : List Nodo) (a b v rc : EV)
    (x' : Nodo) (hev : alfa_beta_reverso x a b = some (rc, x')) :
    abrMaxLoop (x :: T) (T.reverse ++ x :: d2) a b v =
      if a ⊔ (v ⊔ rc) ≥ b then
        some (v ⊔ rc, (T.reverse ++ [x']) ++ marcaList d2)
      else abrMaxLoop T (T.reverse ++ x' :: d2) (a ⊔ (v ⊔ rc)) b (v ⊔ rc) := by
  simp only [abrMaxLoop, hev]
  have hset : (T.reverse ++ x :: d2).set T.length x' = T.reverse ++ x' :: d2 := by
    have h := setMid T.reverse x d2 x'
    simpa using h
  rw [hset, takeRevMid, dropRevMid]

/-- One step of the reverse MIN loop when the current list decomposes as the
reversed tail, the visited child and a suffix. -/
theorem abrMinLoop_paso (x : Nodo) (T d2 : List Nodo) (a b v rc : EV)
    (x' : Nodo) (hev : alfa_beta_reverso x a b = some (rc, x')) :
    abrMinLoop (x :: T) (T.reverse ++ x :: d2) a b v =
      if a ≥ b ⊓ (v ⊓ rc) then
        some (v ⊓ rc, (T.reverse ++ [x']) ++ marcaList d2)
      else abrMinLoop T (T.reverse ++ x' :: d2) a (b ⊓ (v ⊓ rc)) (v ⊓ rc) := by
  simp only [abrMinLoop, hev]
  have hset : (T.reverse ++ x :: d2).set T.length x' = T.reverse ++ x' :: d2 := by
    have h := setMid T.reverse x d2 x'
    simpa using h
  rw [hset, takeRevMid, dropRevMid]

/-- Replay of the reverse MAX loop: a finished run determines an evaluated
prefix P of the final child list; re-running the loop over P, or over its
fully marked copy, reproduces the same value and leaves the list unchanged,
uniformly in whatever suffix follows, which is marked again exactly when the
original run cut off. -/
theorem abrMaxLoop_replay :
    ∀ (cs : List Nodo),
      (∀ c ∈ cs, ∀ a b r c', alfa_beta_reverso c a b = some (r, c') →
        alfa_beta_reverso c' a b = some (r, c') ∧
        alfa_beta_reverso (marca_podado c') a b = some (r, marca_podado c')) →
      ∀ done a b v vfin L,
        abrMaxLoop cs (cs.reverse ++ done) a b v = some (vfin, L) →
        ∃ P : List Nodo,
          (L = P ++ done ∧
            (∀ d2, abrMaxLoop P.reverse (P ++ d2) a b v = some (vfin, P ++ d2)) ∧
            (∀ d2, abrMaxLoop (marcaList P).reverse (marcaList P ++ d2) a b v =
              some (vfin, marcaList P ++ d2))) ∨
          (L = P ++ marcaList done ∧
            (∀ d2, abrMaxLoop P.reverse (P ++ d2) a b v =
              some (vfin, P ++ marcaList d2)) ∧
            (∀ d2, abrMaxLoop (marcaList P).reverse (marcaList P ++ d2) a b v =
              some (vfin, marcaList P ++ marcaList d2))) := by
  intro cs
  induction cs with
  | nil =>
    intro _ done a b v vfin L heq
    simp only [abrMaxLoop, List.reverse_nil, List.nil_append, Option.some_inj,
      Prod.mk.injEq] at heq
    refine ⟨[], Or.inl ⟨?_, ?_, ?_⟩⟩
    · rw [← heq.2]
      rfl
    · intro d2
      rw [← heq.1]
      simp [abrMaxLoop]
    · intro d2
      rw [← heq.1]
      simp [abrMaxLoop, marcaList]
  | cons c rest ih =>
    intro hIH done a b v vfin L heq
    have hcur : (c :: rest).reverse ++ done = rest.reverse ++ c :: done := by simp
    rw [hcur] at heq
    rcases hq0 : alfa_beta_reverso c a b with _ | ⟨rc, c'⟩
    · simp [abrMaxLoop, hq0] at heq
    · rcases hIH c (by simp) a b rc c' hq0 with ⟨hq1, hq2⟩
      rw [abrMaxLoop_paso c rest done a b v rc c' hq0] at heq
      split at heq
      · next hcond =>
        simp only [Option.some_inj, Prod.mk.injEq] at heq
        refine ⟨rest.reverse ++ [c'], Or.inr ⟨heq.2.symm, ?_, ?_⟩⟩
        · intro d2
          have h1 : (rest.reverse ++ [c']).reverse = c' :: rest := by simp
          have h2 : (rest.reverse ++ [c']) ++ d2 = rest.reverse ++ c' :: d2 := by
            simp
          rw [h1, h2, abrMaxLoop_paso c' rest d2 a b v rc c' hq1, if_pos hcond,
            ← heq.1]
        · intro d2
          have h1 : (marcaList (rest.reverse ++ [c'])).reverse =
              marca_podado c' :: (marcaList rest.reverse).reverse := by
            rw [marcaList_append]
            simp [marcaList]
          have h2 : marcaList (rest.reverse ++ [c']) ++ d2 =
              ((marcaList rest.reverse).reverse).reverse ++ marca_podado c' :: d2 := by
            rw [marcaList_append]
            simp [marcaList]
          rw [h1, h2, abrMaxLoop_paso (marca_podado c')
            ((marcaList rest.reverse).reverse) d2 a b v rc (marca_podado c') hq2,
            if_pos hcond, ← heq.1]
          simp [marcaList_append, marcaList]
      · next hcond =>
        rcases ih (fun c hc => hIH c (by simp [hc])) (c' :: done)
            (a ⊔ (v ⊔ rc)) b (v ⊔ rc) vfin L heq with ⟨P', hP'⟩
        rcases hP' with ⟨hL, hrep, hrepm⟩ | ⟨hL, hrep, hrepm⟩
        · refine ⟨P' ++ [c'], Or.inl ⟨?_, ?_, ?_⟩⟩
          · rw [hL]
            simp
          · intro d2
            have h1 : (P' ++ [c']).reverse = c' :: P'.reverse := by simp
            have h2 : (P' ++ [c']) ++ d2 = P'.reverse.reverse ++ c' :: d2 := by
              simp
            rw [h1, h2, abrMaxLoop_paso c' P'.reverse d2 a b v rc c' hq1,
              if_neg hcond]
            have h3 : P'.reverse.reverse ++ c' :: d2 = P' ++ c' :: d2 := by simp
            rw [h3, hrep (c' :: d2)]
          · intro d2
            have h1 : (marcaList (P' ++ [c'])).reverse =
                marca_podado c' :: (marcaList P').reverse := by
              rw [marcaList_append]
              simp [marcaList]
            have h2 : marcaList (P' ++ [c']) ++ d2 =
                ((marcaList P').reverse).reverse ++ marca_podado c' :: d2 := by
              rw [marcaList_append]
              simp [marcaList]
            rw [h1, h2, abrMaxLoop_paso (marca_podado c')
              ((marcaList P').reverse) d2 a b v rc (marca_podado c') hq2,
              if_neg hcond]
            have h3 : (marcaList P').reverse.reverse ++ marca_podado c' :: d2 =
                marcaList P' ++ marca_podado c' :: d2 := by simp
            rw [h3, hrepm (marca_podado c' :: d2)]
        · refine ⟨P' ++ [marca_podado c'], Or.inr ⟨?_, ?_, ?_⟩⟩
          · rw [hL]
            simp [marcaList]
          · intro d2
            have h1 : (P' ++ [marca_podado c']).reverse =
                marca_podado c' :: P'.reverse := by simp
            have h2 : (P' ++ [marca_podado c']) ++ d2 =
                P'.reverse.reverse ++ marca_podado c' :: d2 := by simp
            rw [h1, h2, abrMaxLoop_paso (marca_podado c') P'.reverse d2 a b v rc
              (marca_podado c') hq2, if_neg hcond]
            have h3 : P'.reverse.reverse ++ marca_podado c' :: d2 =
                P' ++ marca_podado c' :: d2 := by simp
            rw [h3, hrep (marca_podado c' :: d2)]
            simp [marcaList_append, marcaList, marca_podado_idem]
          · intro d2
            have hmP : marcaList (P' ++ [marca_podado c']) =
                marcaList P' ++ [marca_podado c'] := by
              rw [marcaList_append]
              simp [marcaList, marca_podado_idem]
            have h1 : (marcaList (P' ++ [marca_podado c'])).reverse =
                marca_podado c' :: (marcaList P').reverse := by
              rw [hmP]
              simp
            have h2 : marcaList (P' ++ [marca_podado c']) ++ d2 =
                ((marcaList P').reverse).reverse ++ marca_podado c' :: d2 := by
              rw [hmP]
              simp
            rw [h1, h2, abrMaxLoop_paso (marca_podado c')
              ((marcaList P').reverse) d2 a b v rc (marca_podado c') hq2,
              if_neg hcond]
            have h3 : (marcaList P').reverse.reverse ++ marca_podado c' :: d2 =
                marcaList P' ++ marca_podado c' :: d2 := by simp
            rw [h3, hrepm (marca_podado c' :: d2)]
            rw [hmP]
            simp [marcaList_append, marcaList, marca_podado_idem]

/-- Replay of the reverse MIN loop, dual to the MAX loop: a finished run determines an evaluated
prefix P of the final child list; re-running the loop over P, or over its
fully marked copy, reproduces the same value and leaves the list unchanged,
uniformly in whatever suffix follows, which is marked again exactly when the
original run cut off. -/
theorem abrMinLoop_replay :
    ∀ (cs : List Nodo),
      (∀ c ∈ cs, ∀ a b r c', alfa_beta_reverso c a b = some (r, c') →
        alfa_beta_reverso c' a b = some (r, c') ∧
        alfa_beta_reverso (marca_podado c') a b = some (r, marca_podado c')) →
      ∀ done a b v vfin L,
        abrMinLoop cs (cs.reverse ++ done) a b v = some (vfin, L) →
        ∃ P : List Nodo,
          (L = P ++ done ∧
            (∀ d2, abrMinLoop P.reverse (P ++ d2) a b v = some (vfin, P ++ d2)) ∧
            (∀ d2, abrMinLoop (marcaList P).reverse (marcaList P ++ d2) a b v =
              some (vfin, marcaList P ++ d2))) ∨
          (L = P ++ marcaList done ∧
            (∀ d2, abrMinLoop P.reverse (P ++ d2) a b v =
              some (vfin, P ++ marcaList d2)) ∧
            (∀ d2, abrMinLoop (marcaList P).reverse (marcaList P ++ d2) a b v =
              some (vfin, marcaList P ++ marcaList d2))) := by
  intro cs
  induction cs with
  | nil =>
    intro _ done a b v vfin L heq
    simp only [abrMinLoop, List.reverse_nil, List.nil_append, Option.some_inj,
      Prod.mk.injEq] at heq
    refine ⟨[], Or.inl ⟨?_, ?_, ?_⟩⟩
    · rw [← heq.2]
      rfl
    · intro d2
      rw [← heq.1]
      simp [abrMinLoop]
    · intro d2
      rw [← heq.1]
      simp [abrMinLoop, marcaList]
  | cons c rest ih =>
    intro hIH done a b v vfin L heq
    have hcur : (c :: rest).reverse ++ done = rest.reverse ++ c :: done := by simp
    rw [hcur] at heq
    rcases hq0 : alfa_beta_reverso c a b with _ | ⟨rc, c'⟩
    · simp [abrMinLoop, hq0] at heq
    · rcases hIH c (by simp) a b rc c' hq0 with ⟨hq1, hq2⟩
      rw [abrMinLoop_paso c rest done a b v rc c' hq0] at heq
      split at heq
      · next hcond =>
        simp only [Option.some_inj, Prod.mk.injEq] at heq
        refine ⟨rest.reverse ++ [c'], Or.inr ⟨heq.2.symm, ?_, ?_⟩⟩
        · intro d2
          have h1 : (rest.reverse ++ [c']).reverse = c' :: rest := by simp
          have h2 : (rest.reverse ++ [c']) ++ d2 = rest.reverse ++ c' :: d2 := by
            simp
          rw [h1, h2, abrMinLoop_paso c' rest d2 a b v rc c' hq1, if_pos hcond,
            ← heq.1]
        · intro d2
          have h1 : (marcaList (rest.reverse ++ [c'])).reverse =
              marca_podado c' :: (marcaList rest.reverse).reverse := by
            rw [marcaList_append]
            simp [marcaList]
          have h2 : marcaList (rest.reverse ++ [c']) ++ d2 =
              ((marcaList rest.reverse).reverse).reverse ++ marca_podado c' :: d2 := by
            rw [marcaList_append]
            simp [marcaList]
          rw [h1, h2, abrMinLoop_paso (marca_podado c')
            ((marcaList rest.reverse).reverse) d2 a b v rc (marca_podado c') hq2,
            if_pos hcond, ← heq.1]
          simp [marcaList_append, marcaList]
      · next hcond =>
        rcases ih (fun c hc => hIH c (by simp [hc])) (c' :: done)
            a (b ⊓ (v ⊓ rc)) (v ⊓ rc) vfin L heq with ⟨P', hP'⟩
        rcases hP' with ⟨hL, hrep, hrepm⟩ | ⟨hL, hrep, hrepm⟩
        · refine ⟨P' ++ [c'], Or.inl ⟨?_, ?_, ?_⟩⟩
          · rw [hL]
            simp
          · intro d2
            have h1 : (P' ++ [c']).reverse = c' :: P'.reverse := by simp
            have h2 : (P' ++ [c']) ++ d2 = P'.reverse.reverse ++ c' :: d2 := by
              simp
            rw [h1, h2, abrMinLoop_paso c' P'.reverse d2 a b v rc c' hq1,
              if_neg hcond]
            have h3 : P'.reverse.reverse ++ c' :: d2 = P' ++ c' :: d2 := by simp
            rw [h3, hrep (c' :: d2)]
          · intro d2
            have h1 : (marcaList (P' ++ [c'])).reverse =
                marca_podado c' :: (marcaList P').reverse := by
              rw [marcaList_append]
              simp [marcaList]
            have h2 : marcaList (P' ++ [c']) ++ d2 =
                ((marcaList P').reverse).reverse ++ marca_podado c' :: d2 := by
              rw [marcaList_append]
              simp [marcaList]
            rw [h1, h2, abrMinLoop_paso (marca_podado c')
              ((marcaList P').reverse) d2 a b v rc (marca_podado c') hq2,
              if_neg hcond]
            have h3 : (marcaList P').reverse.reverse ++ marca_podado c' :: d2 =
                marcaList P' ++ marca_podado c' :: d2 := by simp
            rw [h3, hrepm (marca_podado c' :: d2)]
        · refine ⟨P' ++ [marca_podado c'], Or.inr ⟨?_, ?_, ?_⟩⟩
          · rw [hL]
            simp [marcaList]
          · intro d2
            have h1 : (P' ++ [marca_podado c']).reverse =
                marca_podado c' :: P'.reverse := by simp
            have h2 : (P' ++ [marca_podado c']) ++ d2 =
                P'.reverse.reverse ++ marca_podado c' :: d2 := by simp
            rw [h1, h2, abrMinLoop_paso (marca_podado c') P'.reverse d2 a b v rc
              (marca_podado c') hq2, if_neg hcond]
            have h3 : P'.reverse.reverse ++ marca_podado c' :: d2 =
                P' ++ marca_podado c' :: d2 := by simp
            rw [h3, hrep (marca_podado c' :: d2)]
            simp [marcaList_append, marcaList, marca_podado_idem]
          · intro d2
            have hmP : marcaList (P' ++ [marca_podado c']) =
                marcaList P' ++ [marca_podado c'] := by
              rw [marcaList_append]
              simp [marcaList, marca_podado_idem]
            have h1 : (marcaList (P' ++ [marca_podado c'])).reverse =
                marca_podado c' :: (marcaList P').reverse := by
              rw [hmP]
              simp
            have h2 : marcaList (P' ++ [marca_podado c']) ++ d2 =
                ((marcaList P').reverse).reverse ++ marca_podado c' :: d2 := by
              rw [hmP]
              simp
            rw [h1, h2, abrMinLoop_paso (marca_podado c')
              ((marcaList P').reverse) d2 a b v rc (marca_podado c') hq2,
              if_neg hcond]
            have h3 : (marcaList P').reverse.reverse ++ marca_podado c' :: d2 =
                marcaList P' ++ marca_podado c' :: d2 := by simp
            rw [h3, hrepm (marca_podado c' :: d2)]
            rw [hmP]
            simp [marcaList_append, marcaList, marca_podado_idem]

/-- Re-running alfa_beta_reverso on its own output with the same window
returns the same value and the identical tree, and likewise on the fully
marked copy of its output. -/
theorem idem_alfa_beta_reverso : ∀ t, ∀ a b r t',
    alfa_beta_reverso t a b = some (r, t') →
    alfa_beta_reverso t' a b = some (r, t') ∧
    alfa_beta_reverso (marca_podado t') a b = some (r, marca_podado t') := by
  intro t
  induction t using nodoInd with
  | h i v hs m p ih =>
    intro a b r t' heq
    rw [alfa_beta_reverso] at heq
    cases h0 : hs.isEmpty with
    | true =>
      have hnil : hs = [] := by
        cases hs with
        | nil => rfl
        | cons x xs => simp [List.isEmpty] at h0
      subst hnil
      simp only [if_true, List.isEmpty_nil] at heq
      rcases Option.map_eq_some'.mp heq with ⟨x, hx, hpair⟩
      simp only [Prod.mk.injEq] at hpair
      rw [← hpair.1, ← hpair.2]
      constructor
      · rw [alfa_beta_reverso]
        simp [hx]
      · simp only [marca_podado, marcaList]
        rw [alfa_beta_reverso]
        simp [hx]
    | false =>
      simp only [h0, Bool.false_eq_true, if_false] at heq
      have ihrev : ∀ c ∈ hs.reverse, ∀ a b r c',
          alfa_beta_reverso c a b = some (r, c') →
          alfa_beta_reverso c' a b = some (r, c') ∧
          alfa_beta_reverso (marca_podado c') a b = some (r, marca_podado c') := by
        intro c hc
        rw [List.mem_reverse] at hc
        exact ih c hc
      cases hm : m with
      | true =>
        rw [hm] at heq
        simp only [if_true] at heq
        rcases Option.map_eq_some'.mp heq with ⟨⟨vfin, cs'⟩, hloop, hpair⟩
        simp only [Prod.mk.injEq] at hpair
        rw [← hpair.1, ← hpair.2]
        have hloop2 : abrMaxLoop hs.reverse (hs.reverse.reverse ++ []) a b ⊥ =
            some (vfin, cs') := by simpa using hloop
        rcases abrMaxLoop_replay hs.reverse ihrev [] a b ⊥ vfin cs' hloop2
          with ⟨P, hP⟩
        have hPcs : cs' = P := by
          rcases hP with ⟨hL, _, _⟩ | ⟨hL, _, _⟩ <;> simpa [marcaList] using hL
        have hrep0 : abrMaxLoop cs'.reverse cs' a b ⊥ =
            some (vfin, cs') := by
          rcases hP with ⟨_, hrep, _⟩ | ⟨_, hrep, _⟩ <;>
            · rw [hPcs]
              have h2 := hrep []
              simpa [marcaList] using h2
        have hrepm0 : abrMaxLoop (marcaList cs').reverse (marcaList cs') a b ⊥ =
            some (vfin, marcaList cs') := by
          rcases hP with ⟨_, _, hrepm⟩ | ⟨_, _, hrepm⟩ <;>
            · rw [hPcs]
              have h2 := hrepm []
              simpa [marcaList] using h2
        have hlen : cs'.length = hs.length :=
          abrMaxLoop_longitud hs.reverse hs a b ⊥ vfin cs' hloop
        have hne : cs'.isEmpty = false := by
          rw [List.isEmpty_eq_false_iff_exists_mem]
          rw [List.isEmpty_eq_false_iff_exists_mem] at h0
          rcases h0 with ⟨x, hx⟩
          have hpos : 0 < cs'.length := by
            rw [hlen]
            exact List.length_pos_of_mem hx
          exact List.exists_mem_of_length_pos hpos
        have hnem : (marcaList cs').isEmpty = false := by
          rw [List.isEmpty_eq_false_iff_exists_mem]
          rw [List.isEmpty_eq_false_iff_exists_mem] at hne
          rcases hne with ⟨x, hx⟩
          exact ⟨marca_podado x, by
            rw [marcaList_eq_map]
            exact List.mem_map_of_mem _ hx⟩
        constructor
        · rw [alfa_beta_reverso]
          simp only [Nodo.hijos, hne, Bool.false_eq_true, if_false, if_true]
          rw [hrep0]
          simp
        · rw [marca_podado, alfa_beta_reverso]
          simp only [hnem, Bool.false_eq_true, if_false, if_true]
          rw [hrepm0]
          simp [marca_podado]
      | false =>
        rw [hm] at heq
        simp only [Bool.false_eq_true, if_false] at heq
        rcases Option.map_eq_some'.mp heq with ⟨⟨vfin, cs'⟩, hloop, hpair⟩
        simp only [Prod.mk.injEq] at hpair
        rw [← hpair.1, ← hpair.2]
        have hloop2 : abrMinLoop hs.reverse (hs.reverse.reverse ++ []) a b ⊤ =
            some (vfin, cs') := by simpa using hloop
        rcases abrMinLoop_replay hs.reverse ihrev [] a b ⊤ vfin cs' hloop2
          with ⟨P, hP⟩
        have hPcs : cs' = P := by
          rcases hP with ⟨hL, _, _⟩ | ⟨hL, _, _⟩ <;> simpa [marcaList] using hL
        have hrep0 : abrMinLoop cs'.reverse cs' a b ⊤ =
            some (vfin, cs') := by
          rcases hP with ⟨_, hrep, _⟩ | ⟨_, hrep, _⟩ <;>
            · rw [hPcs]
              have h2 := hrep []
              simpa [marcaList] using h2
        have hrepm0 : abrMinLoop (marcaList cs').reverse (marcaList cs') a b ⊤ =
            some (vfin, marcaList cs') := by
          rcases hP with ⟨_, _, hrepm⟩ | ⟨_, _, hrepm⟩ <;>
            · rw [hPcs]
              have h2 := hrepm []
              simpa [marcaList] using h2
        have hlen : cs'.length = hs.length :=
          abrMinLoop_longitud hs.reverse hs a b ⊤ vfin cs' hloop
        have hne : cs'.isEmpty = false := by
          rw [List.isEmpty_eq_false_iff_exists_mem]
          rw [List.isEmpty_eq_false_iff_exists_mem] at h0
          rcases h0 with ⟨x, hx⟩
          have hpos : 0 < cs'.length := by
            rw [hlen]
            exact List.length_pos_of_mem hx
          exact List.exists_mem_of_length_pos hpos
        have hnem : (marcaList cs').isEmpty = false := by
          rw [List.isEmpty_eq_false_iff_exists_mem]
          rw [List.isEmpty_eq_false_iff_exists_mem] at hne
          rcases hne with ⟨x, hx⟩
          exact ⟨marca_podado x, by
            rw [marcaList_eq_map]
            exact List.mem_map_of_mem _ hx⟩
        constructor
        · rw [alfa_beta_reverso]
          simp only [Nodo.hijos, hne, Bool.false_eq_true, if_false]
          rw [hrep0]
          simp
        · rw [marca_podado, alfa_beta_reverso]
          simp only [hnem, Bool.false_eq_true, if_false]
          rw [hrepm0]
          simp [marca_podado]

/-- Claim C8: for a fixed tree and traversal order the evaluation is
deterministic, which in this embedding is definitional since both evaluators
are functions of the tree and the window, and it is idempotent: re-running
the evaluator on its own output with the same initial alpha minus infinity
and beta plus infinity and the same order returns the same value and leaves
every node's value and podado field identical, the mutated fields being
re-derived rather than accumulated. -/
theorem c8_evaluacion_idempotente :
    (∀ t : Nodo, ∀ r : EV, ∀ t' : Nodo, alfa_beta t ⊥ ⊤ = some (r, t') →
      alfa_beta t' ⊥ ⊤ = some (r, t')) ∧
    (∀ t : Nodo, ∀ r : EV, ∀ t' : Nodo, alfa_beta_reverso t ⊥ ⊤ = some (r, t') →
      alfa_beta_reverso t' ⊥ ⊤ = some (r, t')) :=
  ⟨fun t r t' h => idem_alfa_beta t ⊥ ⊤ r t' h,
   fun t r t' h => (idem_alfa_beta_reverso t ⊥ ⊤ r t' h).1⟩

/-- Witness of claim C8 at the evaluated scenario trees of both orders. -/
theorem c8_testigo :
    alfa_beta
      (Nodo.mk 0 (some (ev 3))
        [ Nodo.mk 1 (some (ev 3)) [Nodo.mk 2 (some (ev 3)) [] true false,
                                   Nodo.mk 3 (some (ev 5)) [] true false] false false,
          Nodo.mk 4 (some (ev 2)) [Nodo.mk 5 (some (ev 2)) [] true false,
                                   Nodo.mk 6 (some (ev 9)) [] true true] false false ]
        true false) ⊥ ⊤ =
      some (ev 3,
        Nodo.mk 0 (some (ev 3))
          [ Nodo.mk 1 (some (ev 3)) [Nodo.mk 2 (some (ev 3)) [] true false,
                                     Nodo.mk 3 (some (ev 5)) [] true false] false false,
            Nodo.mk 4 (some (ev 2)) [Nodo.mk 5 (some (ev 2)) [] true false,
                                     Nodo.mk 6 (some (ev 9)) [] true true] false false ]
          true false) ∧
    alfa_beta_reverso
      (Nodo.mk 0 (some (ev 3))
        [ Nodo.mk 1 (some (ev 3)) [Nodo.mk 2 (some (ev 3)) [] true false,
                                   Nodo.mk 3 (some (ev 5)) [] true false] false false,
          Nodo.mk 4 (some (ev 2)) [Nodo.mk 5 (some (ev 2)) [] true false,
                                   Nodo.mk 6 (some (ev 9)) [] true false] false false ]
        true false) ⊥ ⊤ =
      some (ev 3,
        Nodo.mk 0 (some (ev 3))
          [ Nodo.mk 1 (some (ev 3)) [Nodo.mk 2 (some (ev 3)) [] true false,
                                     Nodo.mk 3 (some (ev 5)) [] true false] false false,
            Nodo.mk 4 (some (ev 2)) [Nodo.mk 5 (some (ev 2)) [] true false,
                                     Nodo.mk 6 (some (ev 9)) [] true false] false false ]
          true false) := by
  constructor
  · exact c8_evaluacion_idempotente.1 arbolEscenario (ev 3) _ rfl
  · refine c8_evaluacion_idempotente.2 arbolEscenario (ev 3) _ ?_
    simp [alfa_beta_reverso, abrMaxLoop, abrMinLoop, arbolEscenario,
      marca_podado, marcaList, ev_le_ev, ev_lt_ev, max_ev_ev, min_ev_ev,
      ev_eq_top, top_le_ev, ev_le_bot, ev_eq_bot,
      maxBotIzq, maxBotDer, minTopIzq, minTopDer]
